import Mathlib

/-
Verification of the skip list library (jyguzman/skiplist).

Shallow embedding of the Go sources: `skiplist.go` (the SkipList type and its
operations), `iterator.go` (the Iterator type), and the node definitions
(`SLItem`, `SLNode` with the `markedDeleted` tombstone flag).

Modelling conventions:
 - Go pointers to nodes become indices (`Nat`) into an explicit heap, a
   `List (SLNode K V)`; a `*SLNode` value is `Option Nat` (`none` = nil).
 - Go `int` fields that can go negative (`maxLevel`, `size`) are `Int`;
   `level` is `Nat` (it is 0 initially, is only ever assigned a value from
   `randomLevel`, and is only decremented while positive).
 - Every operation that can fault in Go (nil-pointer dereference, slice index
   out of range, negative `make` length, negative shift count) returns
   `Option`: `none` models the Go run-time panic.  Loops over the node graph
   take fuel (a bound on the number of steps); exhausting the fuel also gives
   `none`, which can only happen on cyclic node graphs, where the Go loop
   would not terminate.
 - The `sync.RWMutex` fields and all locking calls are erased: the embedding
   gives the sequential semantics of each operation.
 - `tombstones` holds snapshots of the recorded nodes, standing for Go's
   `[]*SLNode` of node pointers; the fields Clean reads (`key`,
   `markedDeleted`) are read from the snapshot.
-/

namespace SkipListVer

set_option autoImplicit false
set_option maxRecDepth 10000

/-- SLItem, a key-value pair in the skip list (node.go). -/
structure SLItem (K V : Type) where
  Key : K
  Val : V
  deriving DecidableEq, Repr

/-- SLNode, a node in the skip list: key, value, header marker, tombstone flag
and the per-level forward pointers (node.go).  Forward pointers are heap
indices; `none` is Go's nil. -/
structure SLNode (K V : Type) where
  key : K
  val : V
  isHeader : Bool := false
  markedDeleted : Bool := false
  forward : List (Option Nat)
  deriving DecidableEq, Repr

/-- SkipList state (skiplist.go).  `header` is the heap index of the header
node; `heap` is the node store standing for the Go heap.  The `rw` lock is
erased. -/
structure SkipList (K V : Type) where
  maxLevel : Int
  level : Nat
  size : Int
  compareFunc : K → K → Int
  header : Nat
  min : Option (SLItem K V)
  max : Option (SLItem K V)
  tombstones : List (SLNode K V)
  heap : List (SLNode K V)

variable {K V : Type}

/-- Item returns the key-value pair from this node (node.go). -/
def SLNode.Item (n : SLNode K V) : SLItem K V :=
  ⟨n.key, n.val⟩

/-- Reads a node from the heap; `none` models dereferencing a dangling
pointer, which cannot happen for states built by the operations. -/
def getN (h : List (SLNode K V)) (x : Nat) : Option (SLNode K V) :=
  h[x]?

/-- Reads `x.forward[i]`; `none` models the Go panic on a slice index out of
range. -/
def getFwd (h : List (SLNode K V)) (x i : Nat) : Option (Option Nat) := do
  let n ← getN h x
  n.forward[i]?

/-- Writes `x.forward[i] := p`; `none` models the Go panic on a slice index
out of range. -/
def setFwd (h : List (SLNode K V)) (x i : Nat) (p : Option Nat) :
    Option (List (SLNode K V)) := do
  let n ← getN h x
  if i < n.forward.length then
    some (h.set x { n with forward := n.forward.set i p })
  else
    none

/-- Comparator for ordered keys, `cmp.Compare[K]` at `K = Int`: -1, 0 or 1. -/
def intCmp (a b : Int) : Int :=
  if a < b then -1 else if a = b then 0 else 1

/-- less returns true if x < y (skiplist.go). -/
def SkipList.less (s : SkipList K V) (x y : K) : Bool :=
  s.compareFunc x y = -1

/-- equal returns true if x == y (skiplist.go). -/
def SkipList.equal (s : SkipList K V) (x y : K) : Bool :=
  s.compareFunc x y = 0

/-- greater returns true if x > y (skiplist.go). -/
def SkipList.greater (s : SkipList K V) (x y : K) : Bool :=
  s.compareFunc x y = 1

/-- leq returns true if x <= y (skiplist.go). -/
def SkipList.leq (s : SkipList K V) (x y : K) : Bool :=
  s.less x y || s.equal x y

/-- geq returns true if x >= y (skiplist.go). -/
def SkipList.geq (s : SkipList K V) (x y : K) : Bool :=
  s.greater x y || s.equal x y

/-- Number of trailing zero bits of a value in the uint64 domain, with the Go
convention `bits.TrailingZeros64(0) = 64`. -/
def trailingZeros64 (n : Nat) : Nat :=
  ((List.range 64).find? fun i => n / 2 ^ i % 2 = 1).getD 64

/-- randomLevel (package-level, skiplist.go):
`bits.TrailingZeros64(uint64(rand.Int63()) & ((1 << maxLevel) - 1))`,
where `r` stands for the draw `rand.Int63()`.  The mask is computed in uint64
arithmetic (a shift by 64 or more yields 0, so the subtraction wraps around);
a negative shift count is a Go run-time panic, modelled by `none`. -/
def randomLevelGo (maxLevel : Int) (r : Int) : Option Nat :=
  if maxLevel < 0 then none
  else
    let p : Nat := 2 ^ maxLevel.toNat % 2 ^ 64
    let mask : Nat := if p = 0 then 2 ^ 64 - 1 else p - 1
    some (trailingZeros64 ((r % 2 ^ 64).toNat &&& mask))

/-- newHeader allocates a header node with `maxLevel` nil forward pointers
(node.go); key and value are the Go zero values. -/
def headerNode (K V : Type) [Inhabited K] [Inhabited V] (maxLevel : Nat) :
    SLNode K V :=
  { key := default, val := default, isHeader := true,
    forward := List.replicate maxLevel none }

/-- newNode allocates a node with `level + 1` nil forward pointers
(node.go). -/
def newNodeF (level : Nat) (key : K) (val : V) : SLNode K V :=
  { key := key, val := val, forward := List.replicate (level + 1) none }

/-- Shared constructor body: NewSkipList / NewCustomKeySkipList with a given
comparator and maximum level `M` (skiplist.go); the field `maxLevel` is
`M - 1`, the header has `M` forward slots. -/
def mkSkipListC [Inhabited K] [Inhabited V] (cmp : K → K → Int) (M : Nat) :
    SkipList K V :=
  { maxLevel := (M : Int) - 1, level := 0, size := 0, compareFunc := cmp,
    header := 0, min := none, max := none, tombstones := [],
    heap := [headerNode K V M] }

/-- NewSkipList for `Int` keys, using `cmp.Compare` (skiplist.go). -/
def mkSkipList (V : Type) [Inhabited V] (M : Nat) : SkipList Int V :=
  mkSkipListC intCmp M

/-- Inner loop of searchNode at one level: advance while
`x.forward[i] != nil && sl.less(x.forward[i].key, searchKey)`. -/
def walk (s : SkipList K V) (i : Nat) (key : K) : Nat → Nat → Option Nat
  | 0, _ => none
  | fuel + 1, x => do
    let fw ← getFwd s.heap x i
    match fw with
    | none => some x
    | some y => do
      let ny ← getN s.heap y
      if s.less ny.key key then walk s i key fuel y else some x

/-- Outer loop of searchNode: `n` remaining levels, current level `n - 1`,
recording the last node visited at each level in `prev`. -/
def snAux (s : SkipList K V) (key : K) :
    Nat → Nat → List (Option Nat) → Option (List (Option Nat) × Nat)
  | 0, x, prev => some (prev, x)
  | n + 1, x, prev => do
    let x' ← walk s n key (s.heap.length + 1) x
    if n < prev.length then snAux s key n x' (prev.set n (some x'))
    else none

/-- searchNode (skiplist.go): returns the per-level predecessor trace and the
last node visited; `previous := make([]*SLNode, sl.maxLevel)` panics when the
field is negative. -/
def searchNodeGo (s : SkipList K V) (key : K) :
    Option (List (Option Nat) × Nat) :=
  if s.maxLevel < 0 then none
  else
    snAux s key (s.level + 1) s.header
      (List.replicate s.maxLevel.toNat none)

/-- Loop `for i := sl.level + 1; i <= lvl; i++ { update[i] = sl.header }` of
Insert; `n` is the number of remaining iterations. -/
def fillHeader (hdr : Nat) : List (Option Nat) → Nat → Nat →
    Option (List (Option Nat))
  | u, _, 0 => some u
  | u, i, n + 1 =>
    if i < u.length then fillHeader hdr (u.set i (some hdr)) (i + 1) n
    else none

/-- Splice loop of Insert:
`for i := 0; i <= lvl; i++ { x.forward[i] = update[i].forward[i];
update[i].forward[i] = x }`; `n` is the number of remaining iterations. -/
def spliceLevels (nid : Nat) (update : List (Option Nat)) :
    List (SLNode K V) → Nat → Nat → Option (List (SLNode K V))
  | h, _, 0 => some h
  | h, i, n + 1 => do
    let uptr ← update[i]?
    let u ← uptr
    let t ← getFwd h u i
    let h ← setFwd h nid i t
    let h ← setFwd h u i (some nid)
    spliceLevels nid update h (i + 1) n

/-- Else branch of Insert (skiplist.go): draw a level, extend the update
trace past the current level with the header, allocate, splice at levels
0..lvl, refresh min/max, increment size.  `r` is the random draw consumed by
`sl.randomLevel()`. -/
def insertNew (s : SkipList K V) (key : K) (val : V) (r : Int)
    (update : List (Option Nat)) : Option (SkipList K V) := do
  let lvl ← randomLevelGo (s.maxLevel - 1) r
  let (update, level) ←
    if lvl > s.level then do
      let u ← fillHeader s.header update (s.level + 1) (lvl - s.level)
      pure (u, lvl)
    else pure (update, s.level)
  let nid := s.heap.length
  let h1 := s.heap ++ [newNodeF lvl key val]
  let h2 ← spliceLevels nid update h1 0 (lvl + 1)
  let (mn, mx) :=
    if s.size = 0 then (some (SLItem.mk key val), some (SLItem.mk key val))
    else (s.min, s.max)
  let mxv ← mx
  let mx' := if s.greater key mxv.Key then some (SLItem.mk key val) else mx
  let mnv ← mn
  let mn' := if s.less key mnv.Key then some (SLItem.mk key val) else mn
  some { s with heap := h2, level := level, min := mn', max := mx',
                size := s.size + 1 }

/-- Insert (skiplist.go): descend, then either overwrite the value in place
and clear the tombstone flag, or splice a fresh node.  `r` is the random draw
for `randomLevel`. -/
def insertGo (s : SkipList K V) (key : K) (val : V) (r : Int) :
    Option (SkipList K V) := do
  let (update, x0) ← searchNodeGo s key
  let cand ← getFwd s.heap x0 0
  match cand with
  | some c => do
    let nc ← getN s.heap c
    if s.equal nc.key key then
      some { s with
        heap := s.heap.set c { nc with val := val, markedDeleted := false } }
    else insertNew s key val r update
  | none => insertNew s key val r update

/-- Runs a sequence of Insert calls; each element carries the key, the value
and the random draw consumed by that call. -/
def runInserts (s : SkipList K V) (ops : List (K × V × Int)) :
    Option (SkipList K V) :=
  ops.foldlM (fun st op => insertGo st op.1 op.2.1 op.2.2) s

/-- Unlink loop of Delete:
`for i := 0; i <= sl.level; i++ { if update[i].forward[i] != x { break };
update[i].forward[i] = x.forward[i] }`. -/
def unlinkLoop (xid : Nat) (update : List (Option Nat)) :
    List (SLNode K V) → Nat → Nat → Option (List (SLNode K V))
  | h, _, 0 => some h
  | h, i, n + 1 => do
    let uptr ← update[i]?
    let u ← uptr
    let t ← getFwd h u i
    if t = some xid then do
      let t' ← getFwd h xid i
      let h ← setFwd h u i t'
      unlinkLoop xid update h (i + 1) n
    else some h

/-- Level-shrink loop of Delete:
`for i := sl.level; i > 0 && sl.header.forward[sl.level] == nil; i-- {
sl.level -= 1 }`. -/
def shrinkLevel (h : List (SLNode K V)) (hdr : Nat) : Nat → Option Nat
  | 0 => some 0
  | l + 1 => do
    let fw ← getFwd h hdr (l + 1)
    match fw with
    | none => shrinkLevel h hdr l
    | some _ => some (l + 1)

/-- Delete (skiplist.go): descend, refresh the cached max (from `update[0]`)
and min (from `update[0].forward[0]`, read before unlinking), unlink level by
level, decrement size and shrink the level. -/
def deleteGo (s : SkipList K V) (key : K) : Option (SkipList K V) := do
  let (update, x0) ← searchNodeGo s key
  let cand ← getFwd s.heap x0 0
  match cand with
  | some c => do
    let nc ← getN s.heap c
    if s.equal nc.key key then do
      let mxv ← s.max
      let mx' ←
        if s.equal nc.key mxv.Key then
          match update[0]? with
          | some (some u) => do
            let nu ← getN s.heap u
            pure (some nu.Item)
          | some none => pure s.max
          | none => none
        else pure s.max
      let mnv ← s.min
      let mn' ←
        if s.equal nc.key mnv.Key then do
          let uptr ← update[0]?
          let u ← uptr
          let t ← getFwd s.heap u 0
          match t with
          | some w => do
            let nw ← getN s.heap w
            pure (some nw.Item)
          | none => pure s.min
        else pure s.min
      let h ← unlinkLoop c update s.heap 0 (s.level + 1)
      let level ← shrinkLevel h s.header s.level
      some { s with heap := h, max := mx', min := mn', size := s.size - 1,
                    level := level }
    else some s
  | none => some s

/-- Lockless delete used by Clean and DeleteAll (skiplist.go): like Delete
but it only refreshes the cached max, never the min. -/
def deleteL (s : SkipList K V) (key : K) : Option (SkipList K V) := do
  let (update, x0) ← searchNodeGo s key
  let cand ← getFwd s.heap x0 0
  match cand with
  | some c => do
    let nc ← getN s.heap c
    if s.equal nc.key key then do
      let mxv ← s.max
      let mx' ←
        if s.equal nc.key mxv.Key then
          match update[0]? with
          | some (some u) => do
            let nu ← getN s.heap u
            pure (some nu.Item)
          | some none => none
          | none => none
        else pure s.max
      let h ← unlinkLoop c update s.heap 0 (s.level + 1)
      let level ← shrinkLevel h s.header s.level
      some { s with heap := h, max := mx', size := s.size - 1,
                    level := level }
    else some s
  | none => some s

/-- LazyDelete (skiplist.go): descend, and when the node after the trace is
non-nil (the key itself is never compared), set its tombstone flag, decrement
size, and patch the cached min/max; the node is never recorded in
`tombstones`.  After the branch that nils out min and max, the following
`sl.equal(x.key, sl.max.Key)` dereferences the nil max (a Go panic, `none`
here). -/
def lazyDeleteGo (s : SkipList K V) (key : K) : Option (SkipList K V) := do
  let (update, x0) ← searchNodeGo s key
  let cand ← getFwd s.heap x0 0
  match cand with
  | some c => do
    let nc ← getN s.heap c
    let h := s.heap.set c { nc with markedDeleted := true }
    let size := s.size - 1
    let (mn, mx) ←
      if size ≤ 1 then pure ((none : Option (SLItem K V)), (none : Option (SLItem K V)))
      else do
        let mnv ← s.min
        if s.equal nc.key mnv.Key then do
          let uptr ← update[0]?
          let u ← uptr
          let nu ← getN h u
          if nu.isHeader then do
            let fw ← getFwd h c 0
            let w ← fw
            let nw ← getN h w
            pure (some nw.Item, s.max)
          else pure (some nu.Item, s.max)
        else pure (s.min, s.max)
    let mxv ← mx
    let (mn, mx) ←
      if s.equal nc.key mxv.Key then do
        let fw ← getFwd h c 0
        match fw with
        | some w => do
          let nw ← getN h w
          pure (mn, some nw.Item)
        | none => do
          let uptr ← update[0]?
          let u ← uptr
          let nu ← getN h u
          pure (mn, some nu.Item)
      else pure (mn, mx)
    some { s with heap := h, size := size, min := mn, max := mx }
  | none => some s

/-- Clean (skiplist.go): walk the tombstone list, physically delete every
entry still flagged (via the lockless delete), then clear the list. -/
def cleanGo (s : SkipList K V) : Option (SkipList K V) := do
  let s' ← s.tombstones.foldlM
    (fun st t => if t.markedDeleted then deleteL st t.key else pure st) s
  some { s' with tombstones := [] }

/-- Clear (skiplist.go): reset size, level, tombstones, min and max, and
allocate a fresh header with `sl.maxLevel` slots (one fewer than the
constructor's header). -/
def clearGo [Inhabited K] [Inhabited V] (s : SkipList K V) :
    Option (SkipList K V) :=
  if s.maxLevel < 0 then none
  else
    some { s with size := 0, level := 0, tombstones := [], max := none,
                  min := none, header := s.heap.length,
                  heap := s.heap ++ [headerNode K V s.maxLevel.toNat] }

/-- Search (skiplist.go): returns the value and a found flag; a tombstoned
node is reported as not found.  The `V` result of the not-found case is the
Go zero value. -/
def searchGo [Inhabited V] (s : SkipList K V) (key : K) :
    Option (V × Bool) := do
  let (_, x0) ← searchNodeGo s key
  let cand ← getFwd s.heap x0 0
  match cand with
  | some c => do
    let nc ← getN s.heap c
    if s.equal nc.key key && !nc.markedDeleted then some (nc.val, true)
    else some (default, false)
  | none => some (default, false)

/-- Tombstone-skip loop of the iterator (iterator.go):
`for it.curr != nil && it.curr.markedDeleted { it.curr = it.curr.forward[0] }`. -/
def skipTombstones (h : List (SLNode K V)) :
    Nat → Option Nat → Option (Option Nat)
  | 0, _ => none
  | _ + 1, none => some none
  | fuel + 1, some x => do
    let n ← getN h x
    if n.markedDeleted then do
      let fw ← n.forward[0]?
      skipTombstones h fuel fw
    else some (some x)

/-- advance of the iterator (iterator.go): skip tombstones, step along
`forward[0]`, skip tombstones again. -/
def advanceIt (h : List (SLNode K V)) (fuel : Nat) (curr : Option Nat) :
    Option (Option Nat) := do
  let c1 ← skipTombstones h fuel curr
  let c2 ←
    match c1 with
    | none => pure (none : Option Nat)
    | some x => do
      let n ← getN h x
      n.forward[0]?
  skipTombstones h fuel c2

/-- Loop of Iterator.All (iterator.go): while HasNext, skip tombstones,
append `*it.curr.Item()` (a nil dereference when the skip ran off the end),
then advance. -/
def allAux (h : List (SLNode K V)) :
    Nat → Option Nat → List (SLItem K V) → Option (List (SLItem K V))
  | 0, _, _ => none
  | _ + 1, none, acc => some acc
  | fuel + 1, some x, acc => do
    let c1 ← skipTombstones h (h.length + 1) (some x)
    let y ← c1
    let n ← getN h y
    let c2 ← advanceIt h (h.length + 1) (some y)
    allAux h fuel c2 (acc ++ [n.Item])

/-- Iterator().All(), also ToArray (skiplist.go): an iterator starting at
`sl.header.forward[0]`, drained by All. -/
def allItemsGo (s : SkipList K V) : Option (List (SLItem K V)) := do
  let start ← getFwd s.heap s.header 0
  allAux s.heap (s.heap.length + 1) start []

/-- Loop of Iterator.UpTo (iterator.go): while HasNext and
`it.compareFunc(it.curr.key, stop) <= 0`, skip tombstones, append, advance.
Note the bound is compared before tombstones are skipped. -/
def upToAux (s : SkipList K V) (stop : K) :
    Nat → Option Nat → List (SLItem K V) → Option (List (SLItem K V))
  | 0, _, _ => none
  | _ + 1, none, acc => some acc
  | fuel + 1, some x, acc => do
    let n ← getN s.heap x
    if s.compareFunc n.key stop ≤ 0 then do
      let c1 ← skipTombstones s.heap (s.heap.length + 1) (some x)
      let y ← c1
      let ny ← getN s.heap y
      let c2 ← advanceIt s.heap (s.heap.length + 1) (some y)
      upToAux s stop fuel c2 (acc ++ [ny.Item])
    else some acc

/-- Range (skiplist.go): locate the first node with key >= start via the
descent, and when it exists and its key is >= start, drain `UpTo(end)` from
it; otherwise the empty list. -/
def rangeGo (s : SkipList K V) (start stop : K) :
    Option (List (SLItem K V)) := do
  let (_, x0) ← searchNodeGo s start
  let sn ← getFwd s.heap x0 0
  match sn with
  | some y => do
    let n ← getN s.heap y
    if s.geq n.key start then upToAux s stop (s.heap.length + 1) (some y) []
    else some []
  | none => some []

/-- Running state of Combine (skiplist.go): the result heap under
construction, the `previous` array (last emitted node per level, initially
the new header everywhere), the collected tombstones, the running level and
size, and the count of random draws consumed so far. -/
structure CombSt (K V : Type) where
  heap : List (SLNode K V)
  prev : List Nat
  tombs : List (SLNode K V)
  newLevel : Nat
  newSize : Int
  ctr : Nat

/-- Splice loop shared by the merge and drain phases of Combine:
`for i := 0; i <= level; i++ { node.forward[i] = previous[i].forward[i];
previous[i].forward[i] = node; previous[i] = node }`. -/
def combSplice (nid : Nat) : List (SLNode K V) → List Nat → Nat → Nat →
    Option (List (SLNode K V) × List Nat)
  | h, prev, _, 0 => some (h, prev)
  | h, prev, i, n + 1 => do
    let u ← prev[i]?
    let t ← getFwd h u i
    let h ← setFwd h nid i t
    let h ← setFwd h u i (some nid)
    combSplice nid h (prev.set i nid) (i + 1) n

/-- Allocates one output node of Combine and splices it at levels 0..level
after the last emitted nodes. -/
def combEmit (st : CombSt K V) (level : Nat) (key : K) (val : V) :
    Option (CombSt K V) := do
  let nid := st.heap.length
  let h := st.heap ++ [newNodeF level key val]
  let (h, prev) ← combSplice nid h st.prev 0 (level + 1)
  some { st with heap := h, prev := prev }

/-- Two-pointer merge loop of Combine: while both chains are non-empty, draw
a level, take the strictly smaller key from the first list, otherwise the key
from the second (advancing both on equal keys); a tombstoned source node is
recorded in `tombstones` instead of being counted in the size, but the
emitted copy is a fresh unmarked node either way. -/
def combLoop (sl1 sl2 : SkipList K V) (newMaxLevel : Int) (rs : Nat → Int) :
    Nat → Option Nat → Option Nat → CombSt K V →
    Option (CombSt K V × Option Nat × Option Nat)
  | 0, _, _, _ => none
  | fuel + 1, some a, some b, st => do
    let na ← getN sl1.heap a
    let nb ← getN sl2.heap b
    let level ← randomLevelGo newMaxLevel (rs st.ctr)
    let st := { st with ctr := st.ctr + 1,
                        newLevel := if level > st.newLevel then level
                                    else st.newLevel }
    if sl1.less na.key nb.key then do
      let st := if na.markedDeleted then { st with tombs := st.tombs ++ [na] }
                else { st with newSize := st.newSize + 1 }
      let p1' ← na.forward[0]?
      let st ← combEmit st level na.key na.val
      combLoop sl1 sl2 newMaxLevel rs fuel p1' (some b) st
    else do
      let st := if nb.markedDeleted then { st with tombs := st.tombs ++ [nb] }
                else { st with newSize := st.newSize + 1 }
      let p2' ← nb.forward[0]?
      let p1' ← if sl1.equal na.key nb.key then na.forward[0]?
                else pure (some a : Option Nat)
      let st ← combEmit st level nb.key nb.val
      combLoop sl1 sl2 newMaxLevel rs fuel p1' p2' st
  | _ + 1, p1, p2, st => some (st, p1, p2)

/-- Drain loop of Combine for the remaining chain of one source list: draw a
level, record tombstone or count, emit, advance.  The running `newLevel` is
not updated here (matching the source). -/
def drainLoop (src : List (SLNode K V)) (newMaxLevel : Int) (rs : Nat → Int) :
    Nat → Option Nat → CombSt K V → Option (CombSt K V)
  | 0, _, _ => none
  | _ + 1, none, st => some st
  | fuel + 1, some a, st => do
    let na ← getN src a
    let level ← randomLevelGo newMaxLevel (rs st.ctr)
    let st := { st with ctr := st.ctr + 1 }
    let st := if na.markedDeleted then { st with tombs := st.tombs ++ [na] }
              else { st with newSize := st.newSize + 1 }
    let st ← combEmit st level na.key na.val
    let p' ← na.forward[0]?
    drainLoop src newMaxLevel rs fuel p' st

/-- Combine (skiplist.go): merge two lists into a fresh one.  `rs` supplies
the random draws consumed by the per-node `randomLevel(newMaxLevel)` calls.
The final min/max computation dereferences the cached min and max of both
operands (nil on an empty operand is a Go panic), and the branch for the
greater max assigns `newMin` (as the source does), so the result's max is
always the first operand's. -/
def combineGo [Inhabited K] [Inhabited V] (sl1 sl2 : SkipList K V)
    (rs : Nat → Int) : Option (SkipList K V) := do
  let newMaxLevel :=
    if sl2.maxLevel > sl1.maxLevel then sl2.maxLevel else sl1.maxLevel
  let p1 ← getFwd sl1.heap sl1.header 0
  let p2 ← getFwd sl2.heap sl2.header 0
  if newMaxLevel < 0 then none
  else do
    let M := newMaxLevel.toNat
    let st0 : CombSt K V :=
      { heap := [headerNode K V M], prev := List.replicate M 0, tombs := [],
        newLevel := 0, newSize := 0, ctr := 0 }
    let (st1, p1', p2') ← combLoop sl1 sl2 newMaxLevel rs
      (sl1.heap.length + sl2.heap.length + 2) p1 p2 st0
    let st2 ← drainLoop sl1.heap newMaxLevel rs (sl1.heap.length + 1) p1' st1
    let st3 ← drainLoop sl2.heap newMaxLevel rs (sl2.heap.length + 1) p2' st2
    let m1 ← sl1.min
    let m2 ← sl2.min
    let newMin := if sl1.less m2.Key m1.Key then sl2.min else sl1.min
    let x1 ← sl1.max
    let x2 ← sl2.max
    let newMin := if sl1.greater x2.Key x1.Key then sl2.max else newMin
    some { maxLevel := newMaxLevel, level := st3.newLevel,
           size := st3.newSize, compareFunc := sl1.compareFunc, header := 0,
           min := newMin, max := sl1.max, tombstones := st3.tombs,
           heap := st3.heap }

/-- Min (skiplist.go): returns the cached minimum element. -/
def minGo (s : SkipList K V) : Option (SLItem K V) :=
  s.min

/-- Max (skiplist.go): returns the cached maximum element. -/
def maxGo (s : SkipList K V) : Option (SLItem K V) :=
  s.max

/-- Size (skiplist.go): returns the stored size field. -/
def sizeGo (s : SkipList K V) : Int :=
  s.size

/-- Level (skiplist.go): returns the current highest level. -/
def levelGo (s : SkipList K V) : Nat :=
  s.level

/-! Specification-side notions used to state the claims. -/

/-- ChainSeg h i p l q: starting from the pointer `p`, following the level-i
forward pointers visits exactly the nodes `l` and ends with the pointer `q`.
`ChainSeg h i p l none` says `l` is the whole nil-terminated level-i chain
from `p`. -/
inductive ChainSeg (h : List (SLNode K V)) (i : Nat) :
    Option Nat → List Nat → Option Nat → Prop where
  | nil (p : Option Nat) : ChainSeg h i p [] p
  | cons {x : Nat} {n : SLNode K V} {fw : Option Nat} {l : List Nat}
      {q : Option Nat} :
      getN h x = some n → n.forward[i]? = some fw → ChainSeg h i fw l q →
      ChainSeg h i (some x) (x :: l) q

/-- The pointer to the first node of a chain listed by `l`. -/
def headPtr (l : List Nat) : Option Nat :=
  match l with
  | [] => none
  | x :: _ => some x

/-- Key of the node at index `x`, defaulting for dangling indices. -/
def keyD [Inhabited K] (h : List (SLNode K V)) (x : Nat) : K :=
  ((getN h x).map SLNode.key).getD default

/-- Strict key order between two heap indices (false on dangling indices). -/
def keyLtB (h : List (SLNode Int V)) (a b : Nat) : Bool :=
  match getN h a, getN h b with
  | some na, some nb => decide (na.key < nb.key)
  | _, _ => false

/-- Every forward pointer of the header or of a chain member lands back in
the chain (a decidable predicate, for concrete witnesses). -/
def PtrOk (h : List (SLNode K V)) (hdr : Nat) (l : List Nat) : Prop :=
  ((hdr :: l).all fun x =>
    match getN h x with
    | some n => n.forward.all fun fw =>
        match fw with
        | some p => decide (p ∈ l)
        | none => true
    | none => true) = true

/-- Well-formedness of a skip list state relative to the listing `l` of its
level-0 chain: the header is a valid header node whose first forward slot
exists, `l` is the nil-terminated level-0 chain from it, keys along `l` are
strictly increasing, chain members are not headers, every forward pointer of
the header or of a member points into the chain, and the comparator is the
integer comparator. -/
structure Inv (s : SkipList Int V) (l : List Nat) : Prop where
  hdrSome : ∃ hn, getN s.heap s.header = some hn ∧ hn.isHeader = true ∧
    ∃ fw0, hn.forward[0]? = some fw0 ∧ ChainSeg s.heap 0 fw0 l none
  sorted : l.Pairwise (fun a b => keyLtB s.heap a b = true)
  nonHdr : ∀ x ∈ l, ((getN s.heap x).map SLNode.isHeader).getD false = false
  closed : PtrOk s.heap s.header l
  cmpEq : s.compareFunc = intCmp

/-- Items of the chain members in chain order (dangling indices dropped;
for well-formed states every index resolves). -/
def itemsOf (h : List (SLNode K V)) (l : List Nat) : List (SLItem K V) :=
  l.filterMap fun x => (getN h x).map SLNode.Item

/-- Item of a chain member when it exists and is not tombstoned. -/
def visEntry (h : List (SLNode K V)) (x : Nat) : Option (SLItem K V) :=
  match getN h x with
  | some n => if n.markedDeleted then none else some n.Item
  | none => none

/-- Items of the non-tombstoned chain members in chain order. -/
def visibleItems (h : List (SLNode K V)) (l : List Nat) : List (SLItem K V) :=
  l.filterMap (visEntry h)

/-- Keys of the chain members in chain order. -/
def keysOf (h : List (SLNode K V)) (l : List Nat) : List K :=
  l.filterMap fun x => (getN h x).map SLNode.key

/-- All chain members are non-tombstoned. -/
def AllVisible (h : List (SLNode K V)) (l : List Nat) : Prop :=
  ∀ x ∈ l, ∀ n, getN h x = some n → n.markedDeleted = false

/-- The first chain member with key at least `a`, if any. -/
def firstGe [Inhabited K] [LT K] [DecidableRel ((· < ·) : K → K → Prop)]
    (h : List (SLNode K V)) (l : List Nat) (a : K) : Option Nat :=
  l.find? fun x => !decide (keyD h x < a)

/-- Every forward pointer of a node of `dom` lands in `tgt`. -/
def HeapClosed (h : List (SLNode K V)) (dom tgt : List Nat) : Prop :=
  ∀ x ∈ dom, ∀ n, getN h x = some n →
    ∀ fw ∈ n.forward, ∀ p, fw = some p → p ∈ tgt

/-! Concrete states used by the claim evaluations and witnesses.  All are
built by running the embedded operations; levels are drawn with `r = 1`,
which yields level 0. -/

/-- Fresh list with maxLevel 4, NewSkipList[int, int](4). -/
def mk4 : SkipList Int Int := mkSkipList Int 4

/-- List after Insert(1,10), Insert(2,20), Insert(3,30). -/
def sIns3 : SkipList Int Int :=
  (runInserts mk4 [(1, 10, 1), (2, 20, 1), (3, 30, 1)]).getD mk4

/-- sIns3 after LazyDelete(2): chain 1, 2 (tombstoned), 3. -/
def sLazy2 : SkipList Int Int := (lazyDeleteGo sIns3 2).getD mk4

/-- List containing only Insert(5,50). -/
def sB5 : SkipList Int Int := (runInserts mk4 [(5, 50, 1)]).getD mk4

/-- List after Insert(1,10), Insert(2,20). -/
def sAB : SkipList Int Int :=
  (runInserts mk4 [(1, 10, 1), (2, 20, 1)]).getD mk4

/-- List containing only Insert(1,10). -/
def s1e : SkipList Int Int := (runInserts mk4 [(1, 10, 1)]).getD mk4

/-- List built with the reversed comparator, after Insert(1,10),
Insert(2,20); its chain is in descending key order. -/
def sC9B : SkipList Int Int :=
  (runInserts (mkSkipListC (fun a b => intCmp b a) 4)
    [(1, 10, 1), (2, 20, 1)]).getD (mkSkipListC (fun a b => intCmp b a) 4)

/-- List after Insert(2,20), Insert(5,50), Insert(7,70), LazyDelete(2):
chain 2 (tombstoned), 5, 7. -/
def sK3 : SkipList Int Int :=
  ((runInserts mk4 [(2, 20, 1), (5, 50, 1), (7, 70, 1)]).bind
    fun s => lazyDeleteGo s 2).getD mk4

/-- Result of Combine(sLazy2, sB5). -/
def sComb : SkipList Int Int :=
  (combineGo sLazy2 sB5 fun _ => 1).getD mk4

/-- State after Clean on sLazy2. -/
def sCleanL : SkipList Int Int := (cleanGo sLazy2).getD mk4

/-- State after the eager Delete(2) on sIns3. -/
def sDel2 : SkipList Int Int := (deleteGo sIns3 2).getD mk4

/-- State after Delete(1) on the two-element list. -/
def sD1 : SkipList Int Int := (deleteGo sAB 1).getD mk4

/-- State after Delete(1) on the one-element list. -/
def sD0 : SkipList Int Int := (deleteGo s1e 1).getD mk4

/-- State after resurrecting key 2 via Insert(2,40) on sLazy2. -/
def sRes : SkipList Int Int := (insertGo sLazy2 2 40 1).getD mk4

/-- State after LazyDelete(0) (an absent key) on sIns3. -/
def sL0 : SkipList Int Int := (lazyDeleteGo sIns3 0).getD mk4

/-- NewSkipList[int, int](1): the smallest constructor-valid capacity; the
field maxLevel is 0 and the constructor's header has one forward slot. -/
def sM1 : SkipList Int Int := mkSkipList Int 1

/-- sM1 after Clear(): the fresh header is allocated with `sl.maxLevel = 0`
forward slots. -/
def sM1c : SkipList Int Int := (clearGo sM1).getD sM1

/-! General lemmas about the heap, chains and the descent. -/

theorem getN_lt_length {h : List (SLNode K V)} {x : Nat} {n : SLNode K V}
    (hx : getN h x = some n) : x < h.length :=
  (List.getElem?_eq_some.mp hx).1

theorem getN_set_eq {h : List (SLNode K V)} {x : Nat} {m : SLNode K V}
    (hx : x < h.length) : getN (h.set x m) x = some m := by
  simp [getN, List.getElem?_set_self hx]

theorem getN_set_ne {h : List (SLNode K V)} {x y : Nat} {m : SLNode K V}
    (hxy : x ≠ y) : getN (h.set x m) y = getN h y := by
  simp [getN, List.getElem?_set_ne hxy]

theorem getN_append_of_getN {h h2 : List (SLNode K V)} {x : Nat}
    {n : SLNode K V} (hx : getN h x = some n) : getN (h ++ h2) x = some n := by
  simpa [getN] using (List.getElem?_append_left (getN_lt_length hx)).trans hx

theorem getN_concat_self {h : List (SLNode K V)} {a : SLNode K V} :
    getN (h ++ [a]) h.length = some a := by
  simp [getN]

theorem getN_fresh {h : List (SLNode K V)} {x : Nat} {n : SLNode K V}
    (hx : getN h x = some n) : x ≠ h.length := by
  have := getN_lt_length hx
  omega

theorem getFwd_eq_some {h : List (SLNode K V)} {x i : Nat} {fw : Option Nat} :
    getFwd h x i = some fw ↔
      ∃ n, getN h x = some n ∧ n.forward[i]? = some fw := by
  unfold getFwd
  cases hx : getN h x <;> simp [hx]

theorem setFwd_eq_some {h h' : List (SLNode K V)} {x i : Nat} {p : Option Nat}
    (hs : setFwd h x i p = some h') :
    ∃ n, getN h x = some n ∧ i < n.forward.length ∧
      h' = h.set x { n with forward := n.forward.set i p } := by
  unfold setFwd at hs
  cases hx : getN h x with
  | none => rw [hx] at hs; exact Option.noConfusion hs
  | some n =>
    rw [hx] at hs
    dsimp only [bind, Option.bind] at hs
    by_cases hi : i < n.forward.length
    · rw [if_pos hi] at hs
      exact ⟨n, rfl, hi, (Option.some.inj hs).symm⟩
    · rw [if_neg hi] at hs
      exact absurd hs (by simp)

theorem setFwd_length {h h' : List (SLNode K V)} {x i : Nat} {p : Option Nat}
    (hs : setFwd h x i p = some h') : h'.length = h.length := by
  obtain ⟨n, _, _, rfl⟩ := setFwd_eq_some hs
  simp

theorem setFwd_getN_ne {h h' : List (SLNode K V)} {x i : Nat} {p : Option Nat}
    (hs : setFwd h x i p = some h') {y : Nat} (hxy : y ≠ x) :
    getN h' y = getN h y := by
  obtain ⟨n, _, _, rfl⟩ := setFwd_eq_some hs
  exact getN_set_ne (fun he => hxy he.symm)

theorem setFwd_shape {h h' : List (SLNode K V)} {x i : Nat} {p : Option Nat}
    (hs : setFwd h x i p = some h') {y : Nat} {n' : SLNode K V}
    (hy : getN h' y = some n') :
    ∃ n, getN h y = some n ∧ n'.key = n.key ∧ n'.val = n.val ∧
      n'.isHeader = n.isHeader ∧ n'.markedDeleted = n.markedDeleted ∧
      n'.forward.length = n.forward.length ∧
      ∀ j, j ≠ i → n'.forward[j]? = n.forward[j]? := by
  obtain ⟨n, hx, hi, rfl⟩ := setFwd_eq_some hs
  by_cases hxy : y = x
  · subst hxy
    rw [getN_set_eq (getN_lt_length hx)] at hy
    cases hy
    exact ⟨n, hx, rfl, rfl, rfl, rfl, by simp, fun j hj =>
      List.getElem?_set_ne (fun he => hj he.symm)⟩
  · rw [getN_set_ne (fun he => hxy he.symm)] at hy
    exact ⟨n', hy, rfl, rfl, rfl, rfl, rfl, fun _ _ => rfl⟩

theorem mem_set_sub {α : Type} {l : List α} {i : Nat} {b a : α}
    (ha : a ∈ l.set i b) : a = b ∨ a ∈ l := by
  obtain ⟨j, hj, hget⟩ := List.getElem_of_mem ha
  by_cases hij : i = j
  · subst hij
    left
    rw [List.getElem_set_self (by simpa using hj)] at hget
    exact hget.symm
  · right
    rw [List.getElem_set_ne hij] at hget
    exact hget ▸ List.getElem_mem _

theorem ptrOk_spec {h : List (SLNode K V)} {hdr : Nat} {l : List Nat}
    (hp : PtrOk h hdr l) :
    ∀ x ∈ hdr :: l, ∀ n, getN h x = some n →
      ∀ fw ∈ n.forward, ∀ p, fw = some p → p ∈ l := by
  intro x hx n hn fw hfw p hp'
  subst hp'
  have hx' := List.all_eq_true.mp hp x hx
  rw [hn] at hx'
  have := List.all_eq_true.mp hx' (some p) hfw
  simpa using this

theorem ptrOk_intro {h : List (SLNode K V)} {hdr : Nat} {l : List Nat}
    (hp : ∀ x ∈ hdr :: l, ∀ n, getN h x = some n →
      ∀ fw ∈ n.forward, ∀ p, fw = some p → p ∈ l) : PtrOk h hdr l := by
  rw [PtrOk, List.all_eq_true]
  intro x hx
  cases hn : getN h x with
  | none => rfl
  | some n =>
    rw [List.all_eq_true]
    intro fw hfw
    cases fw with
    | none => rfl
    | some p => simpa using hp x hx n hn (some p) hfw p rfl

theorem intCmp_eq_neg_one {a b : Int} : intCmp a b = -1 ↔ a < b := by
  unfold intCmp
  split_ifs with h1 h2 <;> simp <;> omega

theorem intCmp_eq_zero {a b : Int} : intCmp a b = 0 ↔ a = b := by
  unfold intCmp
  split_ifs with h1 h2 <;> simp <;> omega

theorem intCmp_eq_one {a b : Int} : intCmp a b = 1 ↔ b < a := by
  unfold intCmp
  split_ifs with h1 h2 <;> simp <;> omega

theorem chainSeg_none {h : List (SLNode K V)} {i : Nat} {l : List Nat}
    {q : Option Nat} (hc : ChainSeg h i none l q) : l = [] ∧ q = none := by
  cases hc
  exact ⟨rfl, rfl⟩

theorem chainSeg_valid {h : List (SLNode K V)} {i : Nat} {p q : Option Nat}
    {l : List Nat} (hc : ChainSeg h i p l q) :
    ∀ x ∈ l, ∃ n, getN h x = some n := by
  induction hc with
  | nil => simp
  | cons hn hfw _ ih =>
    intro z hz
    rcases List.mem_cons.mp hz with rfl | hz
    · exact ⟨_, hn⟩
    · exact ih z hz

theorem chainSeg_append_intro {h : List (SLNode K V)} {i : Nat}
    {p m q : Option Nat} {A B : List Nat} (hA : ChainSeg h i p A m)
    (hB : ChainSeg h i m B q) : ChainSeg h i p (A ++ B) q := by
  induction hA with
  | nil => exact hB
  | cons hn hfw _ ih => exact ChainSeg.cons hn hfw (ih hB)

theorem chainSeg_mem_split {h : List (SLNode K V)} {i : Nat}
    {p q : Option Nat} {l : List Nat} (hc : ChainSeg h i p l q) {x : Nat}
    (hx : x ∈ l) :
    ∃ A B, l = A ++ x :: B ∧ ChainSeg h i p A (some x) ∧
      ChainSeg h i (some x) (x :: B) q := by
  induction hc with
  | nil => simp at hx
  | @cons y n fw l' q' hn hfw hc ih =>
    rcases List.mem_cons.mp hx with rfl | hx
    · exact ⟨[], l', rfl, ChainSeg.nil _, ChainSeg.cons hn hfw hc⟩
    · obtain ⟨A, B, rfl, hA, hB⟩ := ih hx
      exact ⟨y :: A, B, rfl, ChainSeg.cons hn hfw hA, hB⟩

theorem chainSeg_frame {h h' : List (SLNode K V)} {i : Nat}
    {p q : Option Nat} {l : List Nat} (hc : ChainSeg h i p l q)
    (hfr : ∀ x ∈ l, ∀ n, getN h x = some n →
      ∃ n', getN h' x = some n' ∧ n'.forward[i]? = n.forward[i]?) :
    ChainSeg h' i p l q := by
  induction hc with
  | nil => exact ChainSeg.nil _
  | @cons y n fw l' q' hn hfw hc ih =>
    obtain ⟨n', hn', hfw'⟩ := hfr y (List.mem_cons_self _ _) n hn
    exact ChainSeg.cons hn' (hfw' ▸ hfw)
      (ih fun z hz => hfr z (List.mem_cons_of_mem _ hz))

theorem chainSeg_full_nodup_of_sorted {h : List (SLNode Int V)} {i : Nat}
    {p : Option Nat} {l : List Nat} (hc : ChainSeg h i p l none)
    (hs : l.Pairwise (fun a b => keyLtB h a b = true)) : l.Nodup := by
  refine hs.imp_of_mem ?_
  intro a b ha hb hab
  intro he
  subst he
  unfold keyLtB at hab
  obtain ⟨n, hn⟩ := chainSeg_valid hc a ha
  rw [hn] at hab
  simp at hab

theorem length_le_of_nodup_valid {h : List (SLNode K V)} {l : List Nat}
    (hv : ∀ x ∈ l, ∃ n, getN h x = some n) (hnd : l.Nodup) :
    l.length ≤ h.length := by
  have hsub : l.toFinset ⊆ Finset.range h.length := by
    intro x hx
    obtain ⟨n, hn⟩ := hv x (List.mem_toFinset.mp hx)
    exact Finset.mem_range.mpr (getN_lt_length hn)
  have := Finset.card_le_card hsub
  rwa [List.toFinset_card_of_nodup hnd, Finset.card_range] at this

/-! Success conditions of the descent (walk, snAux, searchNode). -/

theorem walk_success {s : SkipList Int V} {l : List Nat}
    (hcl : PtrOk s.heap s.header l) (hcmp : s.compareFunc = intCmp)
    {i : Nat} {k : Int} :
    ∀ {fuel x y : Nat}, walk s i k fuel x = some y →
    x ∈ s.header :: l →
    (x = s.header ∨ ∃ n, getN s.heap x = some n ∧ n.key < k) →
    y ∈ s.header :: l ∧
      (y = s.header ∨ ∃ n, getN s.heap y = some n ∧ n.key < k) ∧
      ∃ fw, getFwd s.heap y i = some fw ∧
        ∀ z, fw = some z →
          z ∈ l ∧ ∃ nz, getN s.heap z = some nz ∧ ¬ nz.key < k := by
  intro fuel
  induction fuel with
  | zero => intro x y hw; exact absurd hw (by simp [walk])
  | succ fuel ih =>
    intro x y hw hx hbelow
    rw [walk] at hw
    cases hgf : getFwd s.heap x i with
    | none => rw [hgf] at hw; exact Option.noConfusion hw
    | some fw =>
      rw [hgf] at hw
      obtain ⟨n, hn, hnf⟩ := getFwd_eq_some.mp hgf
      cases fw with
      | none =>
        cases Option.some.inj hw
        exact ⟨hx, hbelow, none, hgf, by simp⟩
      | some z =>
        dsimp only [bind, Option.bind] at hw
        cases hgz : getN s.heap z with
        | none =>
          rw [hgz] at hw
          exact absurd hw (by simp)
        | some nz =>
          rw [hgz] at hw
          dsimp only [bind, Option.bind] at hw
          have hzl : z ∈ l :=
            ptrOk_spec hcl x hx n hn (some z) (List.getElem?_mem hnf) z rfl
          by_cases hlt : s.less nz.key k = true
          · rw [if_pos hlt] at hw
            have hzk : nz.key < k := by
              rw [SkipList.less, hcmp] at hlt
              exact intCmp_eq_neg_one.mp (by simpa using hlt)
            exact ih hw (List.mem_cons_of_mem _ hzl) (Or.inr ⟨nz, hgz, hzk⟩)
          · rw [if_neg hlt] at hw
            cases Option.some.inj hw
            refine ⟨hx, hbelow, some z, hgf, ?_⟩
            intro w hw'
            cases Option.some.inj hw'
            refine ⟨hzl, nz, hgz, ?_⟩
            rw [SkipList.less, hcmp] at hlt
            intro hlt'
            exact hlt (by simp [intCmp_eq_neg_one.mpr hlt'])

theorem hdr_not_mem {s : SkipList Int V} {l : List Nat} (hinv : Inv s l) :
    s.header ∉ l := by
  obtain ⟨hn, hhn, hish, -⟩ := hinv.hdrSome
  intro hmem
  have hno := hinv.nonHdr s.header hmem
  rw [hhn] at hno
  have hno' : hn.isHeader = false := by simpa using hno
  rw [hno'] at hish
  exact Bool.noConfusion hish

theorem snAux_success {s : SkipList Int V} {l : List Nat} {k : Int}
    (hcl : PtrOk s.heap s.header l) (hcmp : s.compareFunc = intCmp) :
    ∀ {n x : Nat} {prev prev' : List (Option Nat)} {x0 : Nat},
    snAux s k n x prev = some (prev', x0) →
    x ∈ s.header :: l →
    (x = s.header ∨ ∃ nx, getN s.heap x = some nx ∧ nx.key < k) →
    (∀ (j v : Nat), prev[j]? = some (some v) → v ∈ s.header :: l) →
    ((∀ (j v : Nat), prev'[j]? = some (some v) → v ∈ s.header :: l) ∧
     x0 ∈ s.header :: l ∧
     (x0 = s.header ∨ ∃ nx, getN s.heap x0 = some nx ∧ nx.key < k) ∧
     (1 ≤ n → prev'[0]? = some (some x0) ∧
       ∃ fw, getFwd s.heap x0 0 = some fw ∧
         ∀ z, fw = some z →
           z ∈ l ∧ ∃ nz, getN s.heap z = some nz ∧ ¬ nz.key < k)) := by
  intro n
  induction n with
  | zero =>
    intro x prev prev' x0 hsn hx hbelow hprev
    rw [snAux] at hsn
    cases Prod.mk.injEq .. ▸ Option.some.inj hsn with
    | intro h1 h2 =>
      subst h1; subst h2
      exact ⟨hprev, hx, hbelow, by omega⟩
  | succ n ih =>
    intro x prev prev' x0 hsn hx hbelow hprev
    rw [snAux] at hsn
    cases hwk : walk s n k (s.heap.length + 1) x with
    | none => rw [hwk] at hsn; exact Option.noConfusion hsn
    | some x' =>
      rw [hwk] at hsn
      dsimp only [bind, Option.bind] at hsn
      by_cases hlen : n < prev.length
      · rw [if_pos hlen] at hsn
        obtain ⟨hx', hbelow', hfwpost⟩ := walk_success hcl hcmp hwk hx hbelow
        have hprev' : ∀ (j v : Nat), (prev.set n (some x'))[j]? =
            some (some v) → v ∈ s.header :: l := by
          intro j v hjv
          by_cases hjn : j = n
          · subst hjn
            rw [List.getElem?_set_self hlen] at hjv
            cases Option.some.inj (Option.some.inj hjv)
            exact hx'
          · rw [List.getElem?_set_ne (fun he => hjn he.symm)] at hjv
            exact hprev j v hjv
        obtain ⟨hE, hX, hB, hLast⟩ := ih hsn hx' hbelow' hprev'
        refine ⟨hE, hX, hB, fun _ => ?_⟩
        cases n with
        | zero =>
          rw [snAux] at hsn
          cases Prod.mk.injEq .. ▸ Option.some.inj hsn with
          | intro h1 h2 =>
            subst h1; subst h2
            exact ⟨by rw [List.getElem?_set_self hlen], hfwpost⟩
        | succ m => exact hLast (by omega)
      · rw [if_neg hlen] at hsn
        exact Option.noConfusion hsn

theorem searchNode_success {s : SkipList Int V} {l : List Nat}
    (hinv : Inv s l) {k : Int} {prev : List (Option Nat)} {x0 : Nat}
    (hs : searchNodeGo s k = some (prev, x0)) :
    (∀ (j v : Nat), prev[j]? = some (some v) → v ∈ s.header :: l) ∧
    x0 ∈ s.header :: l ∧
    (x0 = s.header ∨ ∃ nx, getN s.heap x0 = some nx ∧ nx.key < k) ∧
    prev[0]? = some (some x0) ∧
    ∃ fw, getFwd s.heap x0 0 = some fw ∧
      ∀ z, fw = some z →
        z ∈ l ∧ ∃ nz, getN s.heap z = some nz ∧ ¬ nz.key < k := by
  unfold searchNodeGo at hs
  split at hs
  · exact Option.noConfusion hs
  · have hinit : ∀ (j v : Nat),
        (List.replicate s.maxLevel.toNat (none : Option Nat))[j]? =
          some (some v) → v ∈ s.header :: l := by
      intro j v hjv
      by_cases hj : j < s.maxLevel.toNat
      · rw [List.getElem?_replicate_of_lt hj] at hjv
        exact Option.noConfusion (Option.some.inj hjv)
      · rw [List.getElem?_eq_none (by simpa using Nat.le_of_not_lt hj)] at hjv
        exact Option.noConfusion hjv
    obtain ⟨hE, hX, hB, hLast⟩ := snAux_success hinv.closed hinv.cmpEq hs
      (List.mem_cons_self _ _) (Or.inl rfl) hinit
    obtain ⟨h0, hfw⟩ := hLast (by omega)
    exact ⟨hE, hX, hB, h0, hfw⟩

theorem chainSeg_head {h : List (SLNode K V)} {i : Nat} {fw : Option Nat}
    {l : List Nat} (hc : ChainSeg h i fw l none) : fw = headPtr l := by
  cases hc with
  | nil => rfl
  | cons => rfl

theorem chain_split_below {s : SkipList Int V} {l : List Nat} (hinv : Inv s l)
    {k : Int} {x0 : Nat} {fw : Option Nat}
    (hx0 : x0 ∈ s.header :: l)
    (hbelow : x0 = s.header ∨ ∃ nx, getN s.heap x0 = some nx ∧ nx.key < k)
    (hfw : getFwd s.heap x0 0 = some fw)
    (hge : ∀ z, fw = some z → ∃ nz, getN s.heap z = some nz ∧ ¬ nz.key < k) :
    ∃ P S, l = P ++ S ∧ fw = headPtr S ∧ ChainSeg s.heap 0 fw S none ∧
      (∀ p ∈ P, ∀ n, getN s.heap p = some n → n.key < k) ∧
      (∀ q ∈ S, ∀ n, getN s.heap q = some n → ¬ n.key < k) := by
  obtain ⟨hn, hhn, hish, fw0, hfw0, hchain⟩ := hinv.hdrSome
  have hSlow : ∀ (S : List Nat), ChainSeg s.heap 0 fw S none →
      S.Pairwise (fun a b => keyLtB s.heap a b = true) →
      ∀ q ∈ S, ∀ n, getN s.heap q = some n → ¬ n.key < k := by
    intro S hcS hsort q hq n hqn
    cases S with
    | nil => simp at hq
    | cons z S' =>
      have hfz : fw = some z := chainSeg_head hcS
      obtain ⟨nz, hnz, hnzk⟩ := hge z hfz
      rcases List.mem_cons.mp hq with rfl | hq'
      · rw [hqn] at hnz
        cases Option.some.inj hnz
        exact hnzk
      · have hlt : keyLtB s.heap z q = true :=
          (List.pairwise_cons.mp hsort).1 q hq'
        unfold keyLtB at hlt
        rw [hnz, hqn] at hlt
        have : nz.key < n.key := by simpa using hlt
        intro hcon
        exact hnzk (by omega)
  rcases List.mem_cons.mp hx0 with hx0h | hx0l
  · subst hx0h
    obtain ⟨n0, hn0, hfw0'⟩ := getFwd_eq_some.mp hfw
    rw [hhn] at hn0
    cases Option.some.inj hn0
    rw [hfw0] at hfw0'
    cases Option.some.inj hfw0'
    exact ⟨[], l, rfl, chainSeg_head hchain, hchain, by simp,
      hSlow l hchain hinv.sorted⟩
  · obtain ⟨A, B, rfl, hA, hB⟩ := chainSeg_mem_split hchain hx0l
    cases hB with
    | cons hn0 hfwB hcB =>
      rename_i n0 fwB
      obtain ⟨n0', hn0', hfwB'⟩ := getFwd_eq_some.mp hfw
      rw [hn0] at hn0'
      cases Option.some.inj hn0'
      rw [hfwB] at hfwB'
      cases Option.some.inj hfwB'
      have hsortB : B.Pairwise (fun a b => keyLtB s.heap a b = true) :=
        hinv.sorted.sublist (by
          exact ((List.sublist_cons_self x0 B).trans
            (List.sublist_append_right A _)))
      refine ⟨A ++ [x0], B, by simp, chainSeg_head hcB, hcB, ?_, ?_⟩
      · intro p hp n hpn
        rcases hbelow with hb | ⟨nx, hnx, hnxk⟩
        · exact absurd (hb ▸ hx0l) (hdr_not_mem hinv)
        rw [hn0] at hnx
        cases Option.some.inj hnx
        rcases List.mem_append.mp hp with hpA | hpx
        · have hlt : keyLtB s.heap p x0 = true := by
            have := (List.pairwise_append.mp hinv.sorted).2.2
            exact this p hpA x0 (List.mem_cons_self _ _)
          unfold keyLtB at hlt
          rw [hpn, hn0] at hlt
          have : n.key < n0.key := by simpa using hlt
          omega
        · have : p = x0 := by simpa using hpx
          subst this
          rw [hpn] at hn0
          cases Option.some.inj hn0
          exact hnxk
      · exact hSlow B hcB hsortB

theorem intCmp_le_zero {a b : Int} : intCmp a b ≤ 0 ↔ a ≤ b := by
  unfold intCmp
  split_ifs with h1 h2 <;> omega

theorem geq_true_iff {s : SkipList Int V} (hcmp : s.compareFunc = intCmp)
    {a b : Int} : s.geq a b = true ↔ b ≤ a := by
  rw [SkipList.geq, SkipList.greater, SkipList.equal, hcmp]
  simp only [Bool.or_eq_true, decide_eq_true_eq]
  rw [intCmp_eq_one, intCmp_eq_zero]
  omega

theorem visibleItems_append {h : List (SLNode K V)} {A B : List Nat} :
    visibleItems h (A ++ B) = visibleItems h A ++ visibleItems h B :=
  List.filterMap_append A B _

theorem visEntry_marked {h : List (SLNode K V)} {t : Nat} {n : SLNode K V}
    (hn : getN h t = some n) (hm : n.markedDeleted = true) :
    visEntry h t = none := by
  simp [visEntry, hn, hm]

theorem visEntry_vis {h : List (SLNode K V)} {t : Nat} {n : SLNode K V}
    (hn : getN h t = some n) (hm : n.markedDeleted = false) :
    visEntry h t = some n.Item := by
  simp [visEntry, hn, hm]

theorem visibleItems_nil_of_marked {h : List (SLNode K V)} {T : List Nat}
    (ht : ∀ t ∈ T, ∀ n, getN h t = some n → n.markedDeleted = true) :
    visibleItems h T = [] := by
  induction T with
  | nil => rfl
  | cons t T' ih =>
    have htail := ih fun z hz => ht z (List.mem_cons_of_mem _ hz)
    have hhead : visEntry h t = none := by
      cases hn : getN h t with
      | none => simp [visEntry, hn]
      | some n => exact visEntry_marked hn (ht t (List.mem_cons_self _ _) n hn)
    unfold visibleItems at htail ⊢
    rw [List.filterMap_cons, hhead]
    exact htail

theorem visibleItems_cons_vis {h : List (SLNode K V)} {y : Nat}
    {n : SLNode K V} {S : List Nat} (hy : getN h y = some n)
    (hv : n.markedDeleted = false) :
    visibleItems h (y :: S) = n.Item :: visibleItems h S := by
  unfold visibleItems
  rw [List.filterMap_cons, visEntry_vis hy hv]

theorem mem_visibleItems {h : List (SLNode K V)} {l : List Nat}
    {it : SLItem K V} (hit : it ∈ visibleItems h l) :
    ∃ x ∈ l, ∃ n, getN h x = some n ∧ n.markedDeleted = false ∧
      it = n.Item := by
  obtain ⟨x, hx, hmap⟩ := List.mem_filterMap.mp hit
  refine ⟨x, hx, ?_⟩
  unfold visEntry at hmap
  cases hn : getN h x with
  | none =>
    rw [hn] at hmap
    exact Option.noConfusion hmap
  | some n =>
    rw [hn] at hmap
    dsimp only at hmap
    by_cases hm : n.markedDeleted
    · rw [if_pos hm] at hmap
      exact Option.noConfusion hmap
    · rw [if_neg hm] at hmap
      exact ⟨n, rfl, Bool.of_not_eq_true hm, (Option.some.inj hmap).symm⟩

theorem find?_append_of_none {α : Type} {p : α → Bool} {l1 l2 : List α}
    (h : ∀ x ∈ l1, p x = false) : (l1 ++ l2).find? p = l2.find? p := by
  induction l1 with
  | nil => simp
  | cons a t ih =>
    have hpa : p a = false := h a (List.mem_cons_self _ _)
    simp only [List.cons_append, List.find?_cons, hpa]
    exact ih fun x hx => h x (List.mem_cons_of_mem _ hx)

theorem skipTombstones_vis {h : List (SLNode K V)} {fuel y : Nat}
    {n : SLNode K V} (hy : getN h y = some n) (hv : n.markedDeleted = false) :
    skipTombstones h (fuel + 1) (some y) = some (some y) := by
  rw [skipTombstones, hy]
  dsimp only [bind, Option.bind]
  rw [hv]
  simp

theorem skipTombstones_success {h : List (SLNode K V)} :
    ∀ {fuel : Nat} {q q' : Option Nat} {M : List Nat},
    skipTombstones h fuel q = some q' → ChainSeg h 0 q M none →
    ∃ T M', M = T ++ M' ∧
      (∀ t ∈ T, ∀ n, getN h t = some n → n.markedDeleted = true) ∧
      q' = headPtr M' ∧ ChainSeg h 0 q' M' none ∧
      ∀ z, q' = some z →
        ∃ n, getN h z = some n ∧ n.markedDeleted = false := by
  intro fuel
  induction fuel with
  | zero =>
    intro q q' M hsk
    exact absurd hsk (by simp [skipTombstones])
  | succ fuel ih =>
    intro q q' M hsk hchain
    cases q with
    | none =>
      rw [skipTombstones] at hsk
      cases Option.some.inj hsk
      obtain ⟨rfl, -⟩ := chainSeg_none hchain
      exact ⟨[], [], rfl, by simp, rfl, ChainSeg.nil _, by simp⟩
    | some x =>
      rw [skipTombstones] at hsk
      cases hchain with
      | cons hn hfw hc =>
        rename_i n fw M₂
        rw [hn] at hsk
        dsimp only [bind, Option.bind] at hsk
        by_cases hm : n.markedDeleted
        · rw [if_pos hm] at hsk
          rw [hfw] at hsk
          dsimp only [bind, Option.bind] at hsk
          obtain ⟨T, M', rfl, hT, hq', hc', hvis⟩ := ih hsk hc
          refine ⟨x :: T, M', rfl, ?_, hq', hc', hvis⟩
          intro t ht nt hnt
          rcases List.mem_cons.mp ht with rfl | ht'
          · rw [hnt] at hn; cases Option.some.inj hn; exact hm
          · exact hT t ht' nt hnt
        · rw [if_neg hm] at hsk
          cases Option.some.inj hsk
          exact ⟨[], x :: M₂, rfl, by simp, rfl, ChainSeg.cons hn hfw hc,
            fun z hz => by
              cases Option.some.inj hz
              exact ⟨n, hn, Bool.of_not_eq_true hm⟩⟩

theorem advance_success {h : List (SLNode K V)} {fuel y : Nat}
    {ny : SLNode K V} {fw1 c2 : Option Nat} {S₁ : List Nat}
    (ha : advanceIt h fuel (some y) = some c2)
    (hy : getN h y = some ny) (hvis : ny.markedDeleted = false)
    (hfw : ny.forward[0]? = some fw1) (hchain : ChainSeg h 0 fw1 S₁ none) :
    ∃ T M', S₁ = T ++ M' ∧
      (∀ t ∈ T, ∀ n, getN h t = some n → n.markedDeleted = true) ∧
      c2 = headPtr M' ∧ ChainSeg h 0 c2 M' none ∧
      ∀ z, c2 = some z →
        ∃ n, getN h z = some n ∧ n.markedDeleted = false := by
  cases fuel with
  | zero => exact absurd ha (by simp [advanceIt, skipTombstones])
  | succ f =>
    unfold advanceIt at ha
    rw [skipTombstones_vis hy hvis] at ha
    dsimp only [bind, Option.bind] at ha
    rw [hy] at ha
    dsimp only [bind, Option.bind] at ha
    rw [hfw] at ha
    dsimp only [bind, Option.bind] at ha
    exact skipTombstones_success ha hchain

theorem upToAux_success {s : SkipList Int V} (hcmp : s.compareFunc = intCmp)
    {b : Int} :
    ∀ {fuel : Nat} {p : Option Nat} {S : List Nat}
      {acc res : List (SLItem Int V)},
    upToAux s b fuel p acc = some res →
    ChainSeg s.heap 0 p S none →
    S.Pairwise (fun a c => keyLtB s.heap a c = true) →
    (p = none ∨ ∃ y S₁, S = y :: S₁ ∧ p = some y ∧
      ∃ n, getN s.heap y = some n ∧ n.markedDeleted = false) →
    res = acc ++
      (visibleItems s.heap S).filter (fun it => decide (it.Key ≤ b)) := by
  intro fuel
  induction fuel with
  | zero =>
    intro p S acc res hrun
    exact absurd hrun (by simp [upToAux])
  | succ fuel ih =>
    intro p S acc res hrun hchain hsort hhead
    cases p with
    | none =>
      rw [upToAux] at hrun
      cases Option.some.inj hrun
      obtain ⟨rfl, -⟩ := chainSeg_none hchain
      simp [visibleItems]
    | some x =>
      rcases hhead with hno | ⟨y, S₁, rfl, hyx, n, hn, hnv⟩
      · exact Option.noConfusion hno
      cases Option.some.inj hyx
      rw [upToAux, hn] at hrun
      dsimp only [bind, Option.bind] at hrun
      rw [hcmp] at hrun
      cases hchain with
      | cons hn' hfw' hc' =>
        rename_i n'' fw1
        rw [hn] at hn'
        cases Option.some.inj hn'
        by_cases hle : intCmp n.key b ≤ 0
        · rw [if_pos hle] at hrun
          rw [skipTombstones_vis hn hnv] at hrun
          dsimp only [bind, Option.bind] at hrun
          rw [hn] at hrun
          dsimp only [bind, Option.bind] at hrun
          cases hadv : advanceIt s.heap (s.heap.length + 1) (some x) with
          | none => rw [hadv] at hrun; exact Option.noConfusion hrun
          | some c2 =>
            rw [hadv] at hrun
            dsimp only [bind, Option.bind] at hrun
            obtain ⟨T, M', rfl, hT, hc2, hcM, hvisM⟩ :=
              advance_success hadv hn hnv hfw' hc'
            have hsortM : M'.Pairwise
                (fun a c => keyLtB s.heap a c = true) :=
              hsort.sublist ((List.sublist_append_right T M').trans
                (List.sublist_cons_self x (T ++ M')))
            have hheadM : c2 = none ∨ ∃ y M₂, M' = y :: M₂ ∧ c2 = some y ∧
                ∃ nM, getN s.heap y = some nM ∧ nM.markedDeleted = false := by
              cases M' with
              | nil => exact Or.inl hc2
              | cons m ms =>
                have hcm : c2 = some m := hc2
                exact Or.inr ⟨m, ms, rfl, hcm, hvisM m hcm⟩
            have hres := ih hrun hcM hsortM hheadM
            rw [hres]
            rw [visibleItems_cons_vis hn hnv, visibleItems_append,
              visibleItems_nil_of_marked hT]
            have hkb : decide (n.key ≤ b) = true := by
              simp [intCmp_le_zero.mp hle]
            simp [SLNode.Item, List.filter_cons, hkb]
        · rw [if_neg hle] at hrun
          cases Option.some.inj hrun
          have hnil : (visibleItems s.heap (x :: S₁)).filter
              (fun it => decide (it.Key ≤ b)) = [] := by
            rw [List.filter_eq_nil_iff]
            intro it hit
            obtain ⟨z, hz, nz, hnz, hnzv, rfl⟩ := mem_visibleItems hit
            rcases List.mem_cons.mp hz with rfl | hz'
            · rw [hnz] at hn
              cases Option.some.inj hn
              simp only [decide_eq_true_eq, SLNode.Item]
              rw [intCmp_le_zero] at hle
              omega
            · have hlt : keyLtB s.heap x z = true :=
                (List.pairwise_cons.mp hsort).1 z hz'
              unfold keyLtB at hlt
              rw [hn, hnz] at hlt
              have : n.key < nz.key := by simpa using hlt
              simp only [decide_eq_true_eq, SLNode.Item]
              rw [intCmp_le_zero] at hle
              omega
          rw [hnil]
          simp

theorem firstGe_head_of_split {h : List (SLNode Int V)} {l P S : List Nat}
    {a : Int} (hl : l = P ++ S)
    (hval : ∀ x ∈ l, ∃ n, getN h x = some n)
    (hP : ∀ p ∈ P, ∀ n, getN h p = some n → n.key < a)
    (hS : ∀ q ∈ S, ∀ n, getN h q = some n → ¬ n.key < a) :
    firstGe h l a = headPtr S := by
  subst hl
  unfold firstGe
  rw [find?_append_of_none]
  · cases S with
    | nil => simp [headPtr]
    | cons z S' =>
      obtain ⟨nz, hnz⟩ := hval z (List.mem_append_right _
        (List.mem_cons_self _ _))
      have : ¬ nz.key < a := hS z (List.mem_cons_self _ _) nz hnz
      rw [List.find?_cons_of_pos]
      · rfl
      · simp [keyD, hnz, this]
  · intro x hx
    obtain ⟨n, hn⟩ := hval x (List.mem_append_left _ hx)
    have := hP x hx n hn
    simp [keyD, hn, this]

theorem filter_vis_below_nil {h : List (SLNode Int V)} {P : List Nat}
    {a b : Int} (hP : ∀ p ∈ P, ∀ n, getN h p = some n → n.key < a) :
    (visibleItems h P).filter
      (fun it => decide (a ≤ it.Key) && decide (it.Key ≤ b)) = [] := by
  rw [List.filter_eq_nil_iff]
  intro it hit
  obtain ⟨z, hz, nz, hnz, -, rfl⟩ := mem_visibleItems hit
  have := hP z hz nz hnz
  simp only [SLNode.Item, Bool.and_eq_true, decide_eq_true_eq, not_and]
  omega

/-- C3 amended: on a well-formed list whose first level-0 node with key at
least `a` (if any) is not tombstoned, Range(a, b) returns exactly the
non-tombstoned stored elements whose key k satisfies a <= k <= b — the end
bound is inclusive, not half-open — in sorted chain order. -/
theorem c3_range_amended {V : Type} (s : SkipList Int V) (l : List Nat)
    (a b : Int) (res : List (SLItem Int V)) (hinv : Inv s l)
    (hstart : ∀ z nz, firstGe s.heap l a = some z →
      getN s.heap z = some nz → nz.markedDeleted = false)
    (hrun : rangeGo s a b = some res) :
    res = (visibleItems s.heap l).filter
      (fun it => decide (a ≤ it.Key) && decide (it.Key ≤ b)) := by
  unfold rangeGo at hrun
  cases hsn : searchNodeGo s a with
  | none => rw [hsn] at hrun; exact Option.noConfusion hrun
  | some pr =>
    obtain ⟨prev, x0⟩ := pr
    rw [hsn] at hrun
    dsimp only [bind, Option.bind] at hrun
    obtain ⟨-, hx0, hbelow, -, fw, hfw, hfwpost⟩ :=
      searchNode_success hinv hsn
    rw [hfw] at hrun
    dsimp only [bind, Option.bind] at hrun
    obtain ⟨P, S, rfl, hfwhead, hcS, hPlow, hShigh⟩ :=
      chain_split_below hinv hx0 hbelow hfw
        (fun z hz => (hfwpost z hz).2)
    obtain ⟨hn, hhn, hish, fw0, hfw0, hchain⟩ := hinv.hdrSome
    have hval : ∀ x ∈ P ++ S, ∃ nx, getN s.heap x = some nx :=
      chainSeg_valid hchain
    have hfirst : firstGe s.heap (P ++ S) a = headPtr S :=
      firstGe_head_of_split rfl hval hPlow hShigh
    cases S with
    | nil =>
      rw [show fw = none from hfwhead] at hrun
      dsimp only at hrun
      cases Option.some.inj hrun
      rw [List.append_nil]
      exact (filter_vis_below_nil hPlow).symm
    | cons z S' =>
      rw [show fw = some z from hfwhead] at hrun
      dsimp only at hrun
      obtain ⟨nz, hnz⟩ := hval z (List.mem_append_right _
        (List.mem_cons_self _ _))
      rw [hnz] at hrun
      dsimp only [bind, Option.bind] at hrun
      have hgeq : s.geq nz.key a = true := by
        rw [geq_true_iff hinv.cmpEq]
        have := hShigh z (List.mem_cons_self _ _) nz hnz
        omega
      rw [if_pos hgeq] at hrun
      have hsortS : (z :: S').Pairwise
          (fun x c => keyLtB s.heap x c = true) :=
        hinv.sorted.sublist (List.sublist_append_right P _)
      have hviz : nz.markedDeleted = false :=
        hstart z nz (hfirst.trans rfl) hnz
      have hcS' : ChainSeg s.heap 0 (some z) (z :: S') none := by
        rw [← show fw = some z from hfwhead]
        exact hcS
      have hres := upToAux_success hinv.cmpEq hrun hcS' hsortS
        (Or.inr ⟨z, S', rfl, rfl, nz, hnz, hviz⟩)
      rw [hres, List.nil_append]
      rw [visibleItems_append, List.filter_append,
        filter_vis_below_nil hPlow, List.nil_append]
      refine List.filter_congr ?_
      intro it hit
      obtain ⟨q, hq, nq, hnq, -, rfl⟩ := mem_visibleItems hit
      have hax : a ≤ nq.key := by
        have := hShigh q hq nq hnq
        omega
      simp [SLNode.Item, hax]

/-! Lemmas about the heap transformations performed by Insert. -/

theorem fillHeader_facts {hdr : Nat} :
    ∀ {cnt : Nat} {u : List (Option Nat)} {i : Nat} {u' : List (Option Nat)},
    fillHeader hdr u i cnt = some u' →
    (∀ (j : Nat), j < i → u'[j]? = u[j]?) ∧
    (∀ (j v : Nat), u'[j]? = some (some v) →
      v = hdr ∨ u[j]? = some (some v)) := by
  intro cnt
  induction cnt with
  | zero =>
    intro u i u' hf
    rw [fillHeader] at hf
    cases Option.some.inj hf
    exact ⟨fun _ _ => rfl, fun _ _ _ => Or.inr (by assumption)⟩
  | succ cnt ih =>
    intro u i u' hf
    rw [fillHeader] at hf
    by_cases hi : i < u.length
    · rw [if_pos hi] at hf
      obtain ⟨h1, h2⟩ := ih hf
      constructor
      · intro j hj
        rw [h1 j (by omega)]
        exact List.getElem?_set_ne (by omega)
      · intro j v hv
        rcases h2 j v hv with hv' | hv'
        · exact Or.inl hv'
        · by_cases hji : j = i
          · subst hji
            rw [List.getElem?_set_self hi] at hv'
            exact Or.inl (Option.some.inj (Option.some.inj hv')).symm
          · rw [List.getElem?_set_ne (fun he => hji he.symm)] at hv'
            exact Or.inr hv'
    · rw [if_neg hi] at hf
      exact Option.noConfusion hf

theorem spliceLevels_rest_facts {nid : Nat} {update : List (Option Nat)} :
    ∀ {cnt : Nat} {h h' : List (SLNode K V)} {i : Nat}, 1 ≤ i →
    spliceLevels nid update h i cnt = some h' →
    h'.length = h.length ∧
    ∀ y n', getN h' y = some n' → ∃ m, getN h y = some m ∧
      n'.key = m.key ∧ n'.val = m.val ∧ n'.isHeader = m.isHeader ∧
      n'.markedDeleted = m.markedDeleted ∧
      n'.forward.length = m.forward.length ∧
      n'.forward[0]? = m.forward[0]? := by
  intro cnt
  induction cnt with
  | zero =>
    intro h h' i hi hsp
    rw [spliceLevels] at hsp
    cases Option.some.inj hsp
    exact ⟨rfl, fun y n' hy => ⟨n', hy, rfl, rfl, rfl, rfl, rfl, rfl⟩⟩
  | succ cnt ih =>
    intro h h' i hi hsp
    rw [spliceLevels] at hsp
    cases hu : update[i]? with
    | none => rw [hu] at hsp; exact Option.noConfusion hsp
    | some uptr =>
      rw [hu] at hsp
      dsimp only [bind, Option.bind] at hsp
      cases uptr with
      | none => exact Option.noConfusion hsp
      | some u =>
        dsimp only at hsp
        cases ht : getFwd h u i with
        | none => rw [ht] at hsp; exact Option.noConfusion hsp
        | some t =>
          rw [ht] at hsp
          dsimp only [bind, Option.bind] at hsp
          cases ha : setFwd h nid i t with
          | none => rw [ha] at hsp; exact Option.noConfusion hsp
          | some hA =>
            rw [ha] at hsp
            dsimp only [bind, Option.bind] at hsp
            cases hb : setFwd hA u i (some nid) with
            | none => rw [hb] at hsp; exact Option.noConfusion hsp
            | some hB =>
              rw [hb] at hsp
              dsimp only [bind, Option.bind] at hsp
              obtain ⟨hlen, hrest⟩ := ih (by omega) hsp
              refine ⟨by rw [hlen, setFwd_length hb, setFwd_length ha], ?_⟩
              intro y n' hy
              obtain ⟨mB, hmB, k1, v1, i1, d1, f1, w1⟩ := hrest y n' hy
              obtain ⟨mA, hmA, k2, v2, i2, d2, f2, w2⟩ :=
                setFwd_shape hb hmB
              obtain ⟨m, hm, k3, v3, i3, d3, f3, w3⟩ := setFwd_shape ha hmA
              refine ⟨m, hm, by rw [k1, k2, k3], by rw [v1, v2, v3],
                by rw [i1, i2, i3], by rw [d1, d2, d3],
                by rw [f1, f2, f3], ?_⟩
              rw [w1, w2 0 (by omega), w3 0 (by omega)]

theorem setFwd_closed {h h' : List (SLNode K V)} {x i : Nat} {p : Option Nat}
    {dom tgt : List Nat} (hs : setFwd h x i p = some h')
    (hp : ∀ q, p = some q → q ∈ tgt) (hcl : HeapClosed h dom tgt) :
    HeapClosed h' dom tgt := by
  obtain ⟨n, hx, hi, rfl⟩ := setFwd_eq_some hs
  intro y hy n' hn' fw hfw q hq
  subst hq
  by_cases hxy : y = x
  · subst hxy
    rw [getN_set_eq (getN_lt_length hx)] at hn'
    cases Option.some.inj hn'
    rcases mem_set_sub hfw with rfl | hfw'
    · exact hp q rfl
    · exact hcl y hy n hx (some q) hfw' q rfl
  · rw [getN_set_ne (fun he => hxy he.symm)] at hn'
    exact hcl y hy n' hn' (some q) hfw q rfl

theorem spliceLevels_closed {nid : Nat} {update : List (Option Nat)}
    {dom tgt : List Nat}
    (hupd : ∀ (j u : Nat), update[j]? = some (some u) → u ∈ dom)
    (hnidt : nid ∈ tgt) :
    ∀ {cnt : Nat} {h h' : List (SLNode K V)} {i : Nat},
    spliceLevels nid update h i cnt = some h' →
    HeapClosed h dom tgt → HeapClosed h' dom tgt := by
  intro cnt
  induction cnt with
  | zero =>
    intro h h' i hsp hcl
    rw [spliceLevels] at hsp
    cases Option.some.inj hsp
    exact hcl
  | succ cnt ih =>
    intro h h' i hsp hcl
    rw [spliceLevels] at hsp
    cases hu : update[i]? with
    | none => rw [hu] at hsp; exact Option.noConfusion hsp
    | some uptr =>
      rw [hu] at hsp
      dsimp only [bind, Option.bind] at hsp
      cases uptr with
      | none => exact Option.noConfusion hsp
      | some u =>
        dsimp only at hsp
        cases ht : getFwd h u i with
        | none => rw [ht] at hsp; exact Option.noConfusion hsp
        | some t =>
          rw [ht] at hsp
          dsimp only [bind, Option.bind] at hsp
          cases ha : setFwd h nid i t with
          | none => rw [ha] at hsp; exact Option.noConfusion hsp
          | some hA =>
            rw [ha] at hsp
            dsimp only [bind, Option.bind] at hsp
            cases hb : setFwd hA u i (some nid) with
            | none => rw [hb] at hsp; exact Option.noConfusion hsp
            | some hB =>
              rw [hb] at hsp
              dsimp only [bind, Option.bind] at hsp
              have htgt : ∀ q, t = some q → q ∈ tgt := by
                intro q hq
                subst hq
                obtain ⟨nu, hnu, hnuf⟩ := getFwd_eq_some.mp ht
                exact hcl u (hupd i u hu) nu hnu (some q)
                  (List.getElem?_mem hnuf) q rfl
              have hclA := setFwd_closed ha htgt hcl
              have hclB := setFwd_closed hb (fun q hq => by
                cases Option.some.inj hq; exact hnidt) hclA
              exact ih hsp hclB

/-! Lemmas driving Iterator.All along a fully visible chain. -/

theorem itemsOf_cons_valid {h : List (SLNode K V)} {x : Nat} {n : SLNode K V}
    {L : List Nat} (hx : getN h x = some n) :
    itemsOf h (x :: L) = n.Item :: itemsOf h L := by
  unfold itemsOf
  rw [List.filterMap_cons, hx]
  rfl

theorem keysOf_cons_valid {h : List (SLNode K V)} {x : Nat} {n : SLNode K V}
    {L : List Nat} (hx : getN h x = some n) :
    keysOf h (x :: L) = n.key :: keysOf h L := by
  unfold keysOf
  rw [List.filterMap_cons, hx]
  rfl

theorem advance_vis {h : List (SLNode K V)} {m x : Nat} {n : SLNode K V}
    {fw : Option Nat} (hn : getN h x = some n) (hv : n.markedDeleted = false)
    (hfw : n.forward[0]? = some fw)
    (hnext : ∀ z, fw = some z →
      ∃ m', getN h z = some m' ∧ m'.markedDeleted = false) :
    advanceIt h (m + 1) (some x) = some fw := by
  unfold advanceIt
  rw [skipTombstones_vis hn hv]
  dsimp only [bind, Option.bind]
  rw [hn]
  dsimp only [bind, Option.bind]
  rw [hfw]
  dsimp only [bind, Option.bind]
  cases fw with
  | none => rw [skipTombstones]
  | some z =>
    obtain ⟨m', hm', hv'⟩ := hnext z rfl
    exact skipTombstones_vis hm' hv'

theorem allAux_chain {h : List (SLNode K V)} :
    ∀ {L : List Nat} {fuel : Nat} {p : Option Nat} {acc : List (SLItem K V)},
    ChainSeg h 0 p L none →
    (∀ x ∈ L, ∀ n, getN h x = some n → n.markedDeleted = false) →
    L.length + 1 ≤ fuel →
    allAux h fuel p acc = some (acc ++ itemsOf h L) := by
  intro L
  induction L with
  | nil =>
    intro fuel p acc hc _ hfuel
    obtain rfl : p = none := chainSeg_head hc
    cases fuel with
    | zero => omega
    | succ f => rw [allAux]; simp [itemsOf]
  | cons x L' ih =>
    intro fuel p acc hc hvis hfuel
    obtain rfl : p = some x := chainSeg_head hc
    cases hc with
    | cons hn hfw hc' =>
      rename_i n fw
      have hxv : n.markedDeleted = false :=
        hvis x (List.mem_cons_self _ _) n hn
      cases fuel with
      | zero => omega
      | succ f =>
        rw [allAux]
        rw [skipTombstones_vis hn hxv]
        dsimp only [bind, Option.bind]
        rw [hn]
        dsimp only [bind, Option.bind]
        have hnext : ∀ z, fw = some z →
            ∃ m', getN h z = some m' ∧ m'.markedDeleted = false := by
          intro z hz
          subst hz
          cases hc' with
          | cons hz' hfz hcz =>
            exact ⟨_, hz', hvis z (List.mem_cons_of_mem _
              (List.mem_cons_self _ _)) _ hz'⟩
        rw [advance_vis hn hxv hfw hnext]
        dsimp only [bind, Option.bind]
        rw [ih hc' (fun z hz => hvis z (List.mem_cons_of_mem _ hz))
          (by simpa using Nat.lt_of_succ_le hfuel)]
        rw [itemsOf_cons_valid hn]
        simp

/-! Helper lemmas for the Insert preservation proof. -/

theorem getN_of_lt {h : List (SLNode K V)} {y : Nat} (hy : y < h.length) :
    ∃ n, getN h y = some n :=
  ⟨h[y], by simp [getN, List.getElem?_eq_getElem hy]⟩

theorem keysOf_congr {h h' : List (SLNode K V)} :
    ∀ {l : List Nat},
    (∀ x ∈ l, (getN h' x).map SLNode.key = (getN h x).map SLNode.key) →
    keysOf h' l = keysOf h l := by
  intro l
  induction l with
  | nil => intro _; rfl
  | cons x t ih =>
    intro hk
    have hrec := ih fun y hy => hk y (List.mem_cons_of_mem _ hy)
    unfold keysOf at hrec ⊢
    rw [List.filterMap_cons, List.filterMap_cons]
    rw [hk x (List.mem_cons_self _ _), hrec]

theorem pairwise_keyLtB_transfer {h h' : List (SLNode Int V)} {l : List Nat}
    (hk : ∀ x ∈ l, ∃ m n', getN h x = some m ∧ getN h' x = some n' ∧
      n'.key = m.key)
    (hp : l.Pairwise (fun a b => keyLtB h a b = true)) :
    l.Pairwise (fun a b => keyLtB h' a b = true) := by
  refine hp.imp_of_mem ?_
  intro a b ha hb hab
  obtain ⟨ma, na, hma, hna, hka⟩ := hk a ha
  obtain ⟨mb, nb, hmb, hnb, hkb⟩ := hk b hb
  unfold keyLtB at hab ⊢
  rw [hma, hmb] at hab
  dsimp only at hab
  rw [hna, hnb]
  dsimp only
  rw [hka, hkb]
  exact hab

theorem chain_all_gt {h : List (SLNode Int V)} {fw : Option Nat} {k : Int} :
    ∀ {S : List Nat}, ChainSeg h 0 fw S none →
    S.Pairwise (fun a b => keyLtB h a b = true) →
    (∀ z, fw = some z → ∃ nz, getN h z = some nz ∧ k < nz.key) →
    ∀ q ∈ S, ∀ n, getN h q = some n → k < n.key := by
  intro S hcS hsort hhead q hq n hqn
  cases S with
  | nil => simp at hq
  | cons z S' =>
    have hfz : fw = some z := chainSeg_head hcS
    obtain ⟨nz, hnz, hnzk⟩ := hhead z hfz
    rcases List.mem_cons.mp hq with rfl | hq'
    · rw [hqn] at hnz
      cases Option.some.inj hnz
      exact hnzk
    · have hlt : keyLtB h z q = true :=
        (List.pairwise_cons.mp hsort).1 q hq'
      unfold keyLtB at hlt
      rw [hnz, hqn] at hlt
      have : nz.key < n.key := by simpa using hlt
      omega

theorem keysOf_append {h : List (SLNode K V)} {A B : List Nat} :
    keysOf h (A ++ B) = keysOf h A ++ keysOf h B := by
  unfold keysOf
  exact List.filterMap_append _ _ _

theorem chainSeg_cons_inv {h : List (SLNode K V)} {i x : Nat}
    {p q : Option Nat} {l : List Nat} (hc : ChainSeg h i p (x :: l) q) :
    ∃ n fw, getN h x = some n ∧ n.forward[i]? = some fw ∧
      ChainSeg h i fw l q := by
  cases hc with
  | cons hn hfw hc' => exact ⟨_, _, hn, hfw, hc'⟩

set_option maxHeartbeats 1000000 in
theorem splice_insert_core {s : SkipList Int V} {l : List Nat}
    (hinv : Inv s l) (hav : AllVisible s.heap l)
    {k : Int} {v : V} {lvl : Nat} {update : List (Option Nat)} {x0 : Nat}
    {fw : Option Nat} {h2 : List (SLNode Int V)}
    (hE : ∀ (j u : Nat), update[j]? = some (some u) → u ∈ s.header :: l)
    (h0 : update[0]? = some (some x0))
    (hx0 : x0 ∈ s.header :: l)
    (hbelow : x0 = s.header ∨ ∃ nx, getN s.heap x0 = some nx ∧ nx.key < k)
    (hfw : getFwd s.heap x0 0 = some fw)
    (hfwgt : ∀ z, fw = some z →
      z ∈ l ∧ ∃ nz, getN s.heap z = some nz ∧ k < nz.key)
    (hsp : spliceLevels s.heap.length update
      (s.heap ++ [newNodeF lvl k v]) 0 (lvl + 1) = some h2) :
    ∃ l',
      (∃ hn2, getN h2 s.header = some hn2 ∧ hn2.isHeader = true ∧
        ∃ fw0, hn2.forward[0]? = some fw0 ∧ ChainSeg h2 0 fw0 l' none) ∧
      l'.Pairwise (fun a b => keyLtB h2 a b = true) ∧
      (∀ x ∈ l', ((getN h2 x).map SLNode.isHeader).getD false = false) ∧
      PtrOk h2 s.header l' ∧
      AllVisible h2 l' ∧
      (keysOf h2 l').toFinset = insert k (keysOf s.heap l).toFinset := by
  obtain ⟨hn, hhn, hish, fw0, hfw0, hchain⟩ := hinv.hdrSome
  have hsp0 := hsp
  obtain ⟨nx0, hnx0, hnx0f⟩ := getFwd_eq_some.mp hfw
  have hx0lt : x0 < s.heap.length := getN_lt_length hnx0
  have hhdrlt : s.header < s.heap.length := getN_lt_length hhn
  have hg1 : ∀ y, y ≠ s.heap.length →
      getN (s.heap ++ [newNodeF lvl k v]) y = getN s.heap y := by
    intro y hy
    unfold getN
    rcases lt_or_ge y s.heap.length with hlt | hge
    · exact List.getElem?_append_left hlt
    · rw [List.getElem?_eq_none (by simp; omega), List.getElem?_eq_none hge]
  rw [spliceLevels] at hsp
  rw [h0] at hsp
  dsimp only [bind, Option.bind] at hsp
  have hfw1 : getFwd (s.heap ++ [newNodeF lvl k v]) x0 0 = some fw :=
    getFwd_eq_some.mpr ⟨nx0, getN_append_of_getN hnx0, hnx0f⟩
  rw [hfw1] at hsp
  dsimp only [bind, Option.bind] at hsp
  cases hsa : setFwd (s.heap ++ [newNodeF lvl k v]) s.heap.length 0 fw with
  | none => rw [hsa] at hsp; exact Option.noConfusion hsp
  | some hA =>
    rw [hsa] at hsp
    dsimp only [bind, Option.bind] at hsp
    cases hsb : setFwd hA x0 0 (some s.heap.length) with
    | none => rw [hsb] at hsp; exact Option.noConfusion hsp
    | some hB =>
      rw [hsb] at hsp
      dsimp only [bind, Option.bind] at hsp
      obtain ⟨mA, hmA, hlenA, hAeq⟩ := setFwd_eq_some hsa
      rw [getN_concat_self] at hmA
      cases Option.some.inj hmA
      have hAlen : hA.length = s.heap.length + 1 := by
        rw [setFwd_length hsa]; simp
      have hAnid : getN hA s.heap.length = some
          { newNodeF lvl k v with
            forward := (newNodeF lvl k v).forward.set 0 fw } := by
        rw [hAeq]
        exact getN_set_eq (by simp)
      have hAne : ∀ y, y ≠ s.heap.length → getN hA y = getN s.heap y := by
        intro y hy
        rw [setFwd_getN_ne hsa hy, hg1 y hy]
      have hx0ne : x0 ≠ s.heap.length := by omega
      obtain ⟨mB, hmB, hlenB, hBeq⟩ := setFwd_eq_some hsb
      rw [hAne x0 hx0ne, hnx0] at hmB
      cases Option.some.inj hmB
      have hBlen : hB.length = s.heap.length + 1 := by
        rw [setFwd_length hsb, hAlen]
      have hBx0 : getN hB x0 = some
          { nx0 with forward := nx0.forward.set 0 (some s.heap.length) } := by
        rw [hBeq]
        exact getN_set_eq (by omega)
      have hBnid : getN hB s.heap.length = some
          { newNodeF lvl k v with
            forward := (newNodeF lvl k v).forward.set 0 fw } := by
        rw [hBeq, getN_set_ne hx0ne]
        exact hAnid
      have hBother : ∀ y, y ≠ s.heap.length → y ≠ x0 →
          getN hB y = getN s.heap y := by
        intro y hy hyx
        rw [hBeq, getN_set_ne (fun he => hyx he.symm)]
        exact hAne y hy
      obtain ⟨hlen2, hrest⟩ := spliceLevels_rest_facts (le_refl 1) hsp
      have h2len : h2.length = s.heap.length + 1 := by rw [hlen2, hBlen]
      have hvalid2 : ∀ y, y < s.heap.length + 1 → ∃ n, getN h2 y = some n :=
        fun y hy => getN_of_lt (by omega)
      have hFx : ∀ y, y ≠ s.heap.length → ∀ n', getN h2 y = some n' →
          ∃ m, getN s.heap y = some m ∧ n'.key = m.key ∧ n'.val = m.val ∧
          n'.isHeader = m.isHeader ∧ n'.markedDeleted = m.markedDeleted := by
        intro y hy n' hn'
        obtain ⟨mB', hmB', k1, v1, i1, d1, f1, w1⟩ := hrest y n' hn'
        by_cases hyx : y = x0
        · subst hyx
          rw [hBx0] at hmB'
          cases Option.some.inj hmB'
          exact ⟨nx0, hnx0, k1, v1, i1, d1⟩
        · rw [hBother y hy hyx] at hmB'
          exact ⟨mB', hmB', k1, v1, i1, d1⟩
      have hF : ∀ y, y ≠ s.heap.length → y ≠ x0 → ∀ n', getN h2 y = some n' →
          ∃ m, getN s.heap y = some m ∧ n'.key = m.key ∧ n'.val = m.val ∧
          n'.isHeader = m.isHeader ∧ n'.markedDeleted = m.markedDeleted ∧
          n'.forward[0]? = m.forward[0]? := by
        intro y hy hyx n' hn'
        obtain ⟨mB', hmB', k1, v1, i1, d1, f1, w1⟩ := hrest y n' hn'
        rw [hBother y hy hyx] at hmB'
        exact ⟨mB', hmB', k1, v1, i1, d1, w1⟩
      have h0len : 0 < nx0.forward.length := by
        by_contra hc
        rw [List.getElem?_eq_none (by omega)] at hnx0f
        exact Option.noConfusion hnx0f
      have hnid2 : ∃ nA, getN h2 s.heap.length = some nA ∧ nA.key = k ∧
          nA.val = v ∧ nA.isHeader = false ∧ nA.markedDeleted = false ∧
          nA.forward[0]? = some fw := by
        obtain ⟨nA, hnA⟩ := hvalid2 s.heap.length (by omega)
        obtain ⟨mB', hmB', k1, v1, i1, d1, f1, w1⟩ := hrest _ nA hnA
        rw [hBnid] at hmB'
        cases Option.some.inj hmB'
        refine ⟨nA, hnA, k1, v1, i1, d1, ?_⟩
        rw [w1]
        exact List.getElem?_set_self (by simp [newNodeF])
      have hx02 : ∃ nX, getN h2 x0 = some nX ∧ nX.key = nx0.key ∧
          nX.isHeader = nx0.isHeader ∧ nX.markedDeleted = nx0.markedDeleted ∧
          nX.forward[0]? = some (some s.heap.length) := by
        obtain ⟨nX, hnX⟩ := hvalid2 x0 (by omega)
        obtain ⟨mB', hmB', k1, v1, i1, d1, f1, w1⟩ := hrest _ nX hnX
        rw [hBx0] at hmB'
        cases Option.some.inj hmB'
        refine ⟨nX, hnX, k1, i1, d1, ?_⟩
        rw [w1]
        exact List.getElem?_set_self h0len
      have hlmem : ∀ y ∈ l, ∃ m, getN s.heap y = some m := chainSeg_valid hchain
      have hlne : ∀ y ∈ l, y ≠ s.heap.length := by
        intro y hy
        obtain ⟨m, hm⟩ := hlmem y hy
        exact getN_fresh hm
      have hkeyl : ∀ y ∈ l, ∃ m n2, getN s.heap y = some m ∧
          getN h2 y = some n2 ∧ n2.key = m.key ∧ n2.isHeader = m.isHeader ∧
          n2.markedDeleted = m.markedDeleted := by
        intro y hy
        obtain ⟨m, hm⟩ := hlmem y hy
        obtain ⟨n2, hn2⟩ := hvalid2 y (by have := getN_lt_length hm; omega)
        obtain ⟨m', hm', k1, v1, i1, d1⟩ := hFx y (hlne y hy) n2 hn2
        rw [hm] at hm'
        cases Option.some.inj hm'
        exact ⟨m, n2, hm, hn2, k1, i1, d1⟩
      have hclosed2 : HeapClosed h2 (s.header :: s.heap.length :: l)
          (s.heap.length :: l) := by
        refine spliceLevels_closed ?_ (List.mem_cons_self _ _) hsp0 ?_
        · intro j u hj
          rcases List.mem_cons.mp (hE j u hj) with rfl | hul
          · exact List.mem_cons_self _ _
          · exact List.mem_cons_of_mem _ (List.mem_cons_of_mem _ hul)
        · intro x hx n hnx hfv hfvm p hp
          subst hp
          by_cases hxn : x = s.heap.length
          · subst hxn
            rw [getN_concat_self] at hnx
            cases Option.some.inj hnx
            have hrep : some p ∈ List.replicate (lvl + 1) (none : Option Nat) :=
              hfvm
            exact Option.noConfusion (List.eq_of_mem_replicate hrep)
          · rw [hg1 x hxn] at hnx
            have hxhl : x ∈ s.header :: l := by
              rcases List.mem_cons.mp hx with rfl | hx'
              · exact List.mem_cons_self _ _
              · rcases List.mem_cons.mp hx' with rfl | hx''
                · exact absurd rfl hxn
                · exact List.mem_cons_of_mem _ hx''
            exact List.mem_cons_of_mem _
              (ptrOk_spec hinv.closed x hxhl n hnx _ hfvm p rfl)
      rcases List.mem_cons.mp hx0 with hx0h | hx0l
      · -- the predecessor is the header: the new node heads the chain
        subst hx0h
        rw [hhn] at hnx0
        have hnxhn : hn = nx0 := Option.some.inj hnx0
        rw [← hnxhn] at hnx0f
        rw [hfw0] at hnx0f
        have hffw : fw0 = fw := Option.some.inj hnx0f
        rw [hffw] at hchain
        obtain ⟨nA, hnA, hkA, hvA, hiA, hdA, hfA⟩ := hnid2
        obtain ⟨nX, hnX, hkX, hiX, hdX, hfX⟩ := hx02
        have hchain2 : ChainSeg h2 0 (some s.heap.length)
            (s.heap.length :: l) none := by
          refine ChainSeg.cons hnA hfA ?_
          refine chainSeg_frame hchain ?_
          intro x hx n hnx
          have hxne : x ≠ s.heap.length := hlne x hx
          have hxx0 : x ≠ s.header := fun he => hdr_not_mem hinv (he ▸ hx)
          obtain ⟨n2, hn2⟩ := hvalid2 x (by have := getN_lt_length hnx; omega)
          obtain ⟨m, hm, k1, v1, i1, d1, w1⟩ := hF x hxne hxx0 n2 hn2
          rw [hnx] at hm
          cases Option.some.inj hm
          exact ⟨n2, hn2, by rw [w1]⟩
        have hgt : ∀ q ∈ l, ∀ n, getN s.heap q = some n → k < n.key :=
          chain_all_gt hchain hinv.sorted (fun z hz => (hfwgt z hz).2)
        have hsort2 : (s.heap.length :: l).Pairwise
            (fun a b => keyLtB h2 a b = true) := by
          refine List.pairwise_cons.mpr ⟨?_, ?_⟩
          · intro b hb
            obtain ⟨m, n2, hm, hn2, k1, i1, d1⟩ := hkeyl b hb
            unfold keyLtB
            rw [hnA, hn2]
            dsimp only
            rw [hkA, k1]
            simpa using hgt b hb m hm
          · refine pairwise_keyLtB_transfer ?_ hinv.sorted
            intro x hx
            obtain ⟨m, n2, hm, hn2, k1, _, _⟩ := hkeyl x hx
            exact ⟨m, n2, hm, hn2, k1⟩
        have hnhdr2 : ∀ x ∈ s.heap.length :: l,
            ((getN h2 x).map SLNode.isHeader).getD false = false := by
          intro x hx
          rcases List.mem_cons.mp hx with rfl | hx'
          · rw [hnA]
            simpa using hiA
          · obtain ⟨m, n2, hm, hn2, _, i1, _⟩ := hkeyl x hx'
            rw [hn2]
            have hold := hinv.nonHdr x hx'
            rw [hm] at hold
            simp at hold ⊢
            rw [i1]
            exact hold
        have hvis2 : AllVisible h2 (s.heap.length :: l) := by
          intro x hx n hnx
          rcases List.mem_cons.mp hx with rfl | hx'
          · rw [hnA] at hnx
            cases Option.some.inj hnx
            exact hdA
          · obtain ⟨m, n2, hm, hn2, _, _, d1⟩ := hkeyl x hx'
            rw [hn2] at hnx
            cases Option.some.inj hnx
            rw [d1]
            exact hav x hx' m hm
        have hkcongr : keysOf h2 l = keysOf s.heap l := by
          refine keysOf_congr ?_
          intro x hx
          obtain ⟨m, n2, hm, hn2, k1, _, _⟩ := hkeyl x hx
          rw [hm, hn2]
          dsimp only [Option.map]
          rw [k1]
        have hkeys2 : keysOf h2 (s.heap.length :: l) = k :: keysOf s.heap l := by
          rw [keysOf_cons_valid hnA, hkA, hkcongr]
        exact ⟨s.heap.length :: l,
          ⟨nX, hnX, hiX.trans (hnxhn ▸ hish), some s.heap.length, hfX, hchain2⟩,
          hsort2, hnhdr2, ptrOk_intro hclosed2, hvis2,
          by rw [hkeys2, List.toFinset_cons]⟩
      · -- the predecessor is a chain member: splice after it
        have hx0nh : x0 ≠ s.header := fun he => hdr_not_mem hinv (he ▸ hx0l)
        rcases hbelow with hb | ⟨nx, hnx, hnxk⟩
        · exact absurd (hb ▸ hx0l) (hdr_not_mem hinv)
        rw [hnx0] at hnx
        have hnx2 : nx0 = nx := Option.some.inj hnx
        rw [← hnx2] at hnxk
        obtain ⟨A, B, rfl, hcA, hcB0⟩ := chainSeg_mem_split hchain hx0l
        obtain ⟨n0, fwB, hn0, hfwB, hcB⟩ := chainSeg_cons_inv hcB0
        rw [hnx0] at hn0
        have hn02 : nx0 = n0 := Option.some.inj hn0
        rw [← hn02] at hfwB
        rw [hnx0f] at hfwB
        have hfwB2 : fw = fwB := Option.some.inj hfwB
        rw [← hfwB2] at hcB
        have hnodup : (A ++ x0 :: B).Nodup :=
          chainSeg_full_nodup_of_sorted hchain hinv.sorted
        have hx0A : x0 ∉ A := by
          have hdisj := (List.nodup_append.mp hnodup).2.2
          intro hmem
          exact hdisj hmem (List.mem_cons_self _ _)
        have hx0B : x0 ∉ B :=
          (List.nodup_cons.mp (List.nodup_append.mp hnodup).2.1).1
        have hsplit := List.pairwise_append.mp hinv.sorted
        have hpA := hsplit.1
        have hpXB := hsplit.2.1
        have hcross := hsplit.2.2
        have hx0ltB := (List.pairwise_cons.mp hpXB).1
        have hpB := (List.pairwise_cons.mp hpXB).2
        have hgtB : ∀ q ∈ B, ∀ n, getN s.heap q = some n → k < n.key :=
          chain_all_gt hcB hpB (fun z hz => (hfwgt z hz).2)
        have hmemA : ∀ p ∈ A, p ∈ A ++ x0 :: B :=
          fun p hp => List.mem_append_left _ hp
        have hmemB : ∀ q ∈ B, q ∈ A ++ x0 :: B :=
          fun q hq => List.mem_append_right _ (List.mem_cons_of_mem _ hq)
        have hmemx0 : x0 ∈ A ++ x0 :: B := hx0l
        obtain ⟨nA, hnA, hkA, hvA, hiA, hdA, hfA⟩ := hnid2
        obtain ⟨nX, hnX, hkX, hiX, hdX, hfX⟩ := hx02
        have hpart1 : ChainSeg h2 0 fw0 A (some x0) := by
          refine chainSeg_frame hcA ?_
          intro x hx n hnx'
          have hxne : x ≠ s.heap.length := hlne x (hmemA x hx)
          have hxx0 : x ≠ x0 := fun he => hx0A (he ▸ hx)
          obtain ⟨n2, hn2⟩ := hvalid2 x (by have := getN_lt_length hnx'; omega)
          obtain ⟨m, hm, k1, v1, i1, d1, w1⟩ := hF x hxne hxx0 n2 hn2
          rw [hnx'] at hm
          cases Option.some.inj hm
          exact ⟨n2, hn2, by rw [w1]⟩
        have hpart2 : ChainSeg h2 0 (some x0)
            (x0 :: s.heap.length :: B) none := by
          refine ChainSeg.cons hnX hfX ?_
          refine ChainSeg.cons hnA hfA ?_
          refine chainSeg_frame hcB ?_
          intro x hx n hnx'
          have hxne : x ≠ s.heap.length := hlne x (hmemB x hx)
          have hxx0 : x ≠ x0 := fun he => hx0B (he ▸ hx)
          obtain ⟨n2, hn2⟩ := hvalid2 x (by have := getN_lt_length hnx'; omega)
          obtain ⟨m, hm, k1, v1, i1, d1, w1⟩ := hF x hxne hxx0 n2 hn2
          rw [hnx'] at hm
          cases Option.some.inj hm
          exact ⟨n2, hn2, by rw [w1]⟩
        have hchain2 : ChainSeg h2 0 fw0
            (A ++ x0 :: s.heap.length :: B) none :=
          chainSeg_append_intro hpart1 hpart2
        have hhne : s.header ≠ s.heap.length := by omega
        obtain ⟨nH2, hnH2⟩ := hvalid2 s.header (by omega)
        obtain ⟨mH, hmH, kH2, vH2, iH2, dH2, wH2⟩ :=
          hF s.header hhne (fun he => hx0nh he.symm) nH2 hnH2
        rw [hhn] at hmH
        have hmH2 : hn = mH := Option.some.inj hmH
        have hfH2 : nH2.forward[0]? = some fw0 := by
          rw [wH2, ← hmH2, hfw0]
        have hmem' : ∀ x, x ∈ A ++ x0 :: s.heap.length :: B ↔
            x = s.heap.length ∨ x ∈ A ++ x0 :: B := by
          intro y
          constructor
          · intro hy
            rcases List.mem_append.mp hy with h | h
            · exact Or.inr (List.mem_append_left _ h)
            · rcases List.mem_cons.mp h with h1 | h1
              · exact Or.inr (by rw [h1]; exact hmemx0)
              · rcases List.mem_cons.mp h1 with h2 | h2
                · exact Or.inl h2
                · exact Or.inr (hmemB _ h2)
          · intro hy
            rcases hy with rfl | hy
            · exact List.mem_append_right _
                (List.mem_cons_of_mem _ (List.mem_cons_self _ _))
            · rcases List.mem_append.mp hy with h | h
              · exact List.mem_append_left _ h
              · rcases List.mem_cons.mp h with h1 | h1
                · rw [h1]
                  exact List.mem_append_right _ (List.mem_cons_self _ _)
                · exact List.mem_append_right _ (List.mem_cons_of_mem _
                    (List.mem_cons_of_mem _ h1))
        have hkltB2 : ∀ a ∈ A ++ x0 :: B, ∀ b ∈ A ++ x0 :: B,
            keyLtB s.heap a b = true → keyLtB h2 a b = true := by
          intro a ha b hb hab
          obtain ⟨ma, na2, hma, hna2, ka, _, _⟩ := hkeyl a ha
          obtain ⟨mb, nb2, hmb, hnb2, kb, _, _⟩ := hkeyl b hb
          unfold keyLtB at hab ⊢
          rw [hma, hmb] at hab
          dsimp only at hab
          rw [hna2, hnb2]
          dsimp only
          rw [ka, kb]
          exact hab
        have hkltnidr : ∀ b ∈ B, keyLtB h2 s.heap.length b = true := by
          intro b hb
          obtain ⟨mb, nb2, hmb, hnb2, kb, _, _⟩ := hkeyl b (hmemB b hb)
          unfold keyLtB
          rw [hnA, hnb2]
          dsimp only
          rw [hkA, kb]
          simpa using hgtB b hb mb hmb
        have hkeyAlt : ∀ a ∈ A, ∀ ma, getN s.heap a = some ma →
            ma.key < k := by
          intro a ha ma hma
          have hlt := hcross a ha x0 (List.mem_cons_self _ _)
          unfold keyLtB at hlt
          rw [hma, hnx0] at hlt
          have : ma.key < nx0.key := by simpa using hlt
          omega
        have hsort2 : (A ++ x0 :: s.heap.length :: B).Pairwise
            (fun a b => keyLtB h2 a b = true) := by
          refine List.pairwise_append.mpr ⟨?_, ?_, ?_⟩
          · refine pairwise_keyLtB_transfer ?_ hpA
            intro x hx
            obtain ⟨m, n2, hm, hn2, k1, _, _⟩ := hkeyl x (hmemA x hx)
            exact ⟨m, n2, hm, hn2, k1⟩
          · refine List.pairwise_cons.mpr ⟨?_, ?_⟩
            · intro b hb
              rcases List.mem_cons.mp hb with rfl | hb'
              · unfold keyLtB
                rw [hnX, hnA]
                dsimp only
                rw [hkX, hkA]
                simpa using hnxk
              · exact hkltB2 x0 hmemx0 b (hmemB b hb') (hx0ltB b hb')
            · refine List.pairwise_cons.mpr ⟨hkltnidr, ?_⟩
              refine pairwise_keyLtB_transfer ?_ hpB
              intro x hx
              obtain ⟨m, n2, hm, hn2, k1, _, _⟩ := hkeyl x (hmemB x hx)
              exact ⟨m, n2, hm, hn2, k1⟩
          · intro a ha b hb
            rcases List.mem_cons.mp hb with rfl | hb'
            · exact hkltB2 a (hmemA a ha) b hmemx0
                (hcross a ha b (List.mem_cons_self _ _))
            rcases List.mem_cons.mp hb' with rfl | hb''
            · obtain ⟨ma, na2, hma, hna2, ka, _, _⟩ := hkeyl a (hmemA a ha)
              unfold keyLtB
              rw [hna2, hnA]
              dsimp only
              rw [ka, hkA]
              simpa using hkeyAlt a ha ma hma
            · exact hkltB2 a (hmemA a ha) b (hmemB b hb'')
                (hcross a ha b (List.mem_cons_of_mem _ hb''))
        have hnhdr2 : ∀ x ∈ A ++ x0 :: s.heap.length :: B,
            ((getN h2 x).map SLNode.isHeader).getD false = false := by
          intro x hx
          rcases (hmem' x).mp hx with rfl | hxl
          · rw [hnA]
            simpa using hiA
          · obtain ⟨m, n2, hm, hn2, _, i1, _⟩ := hkeyl x hxl
            rw [hn2]
            have hold := hinv.nonHdr x hxl
            rw [hm] at hold
            simp at hold ⊢
            rw [i1]
            exact hold
        have hptr2 : PtrOk h2 s.header (A ++ x0 :: s.heap.length :: B) := by
          refine ptrOk_intro ?_
          intro x hx n hnx' hfv hfvm p hp
          have hxd : x ∈ s.header :: s.heap.length :: (A ++ x0 :: B) := by
            rcases List.mem_cons.mp hx with rfl | hx'
            · exact List.mem_cons_self _ _
            · rcases (hmem' x).mp hx' with rfl | hxl
              · exact List.mem_cons_of_mem _ (List.mem_cons_self _ _)
              · exact List.mem_cons_of_mem _ (List.mem_cons_of_mem _ hxl)
          have hp' := hclosed2 x hxd n hnx' hfv hfvm p hp
          rcases List.mem_cons.mp hp' with rfl | hpl
          · exact (hmem' s.heap.length).mpr (Or.inl rfl)
          · exact (hmem' p).mpr (Or.inr hpl)
        have hvis2 : AllVisible h2 (A ++ x0 :: s.heap.length :: B) := by
          intro x hx n hnx'
          rcases (hmem' x).mp hx with rfl | hxl
          · rw [hnA] at hnx'
            cases Option.some.inj hnx'
            exact hdA
          · obtain ⟨m, n2, hm, hn2, _, _, d1⟩ := hkeyl x hxl
            rw [hn2] at hnx'
            cases Option.some.inj hnx'
            rw [d1]
            exact hav x hxl m hm
        have hkcongrA : keysOf h2 A = keysOf s.heap A := by
          refine keysOf_congr ?_
          intro x hx
          obtain ⟨m, n2, hm, hn2, k1, _, _⟩ := hkeyl x (hmemA x hx)
          rw [hm, hn2]
          dsimp only [Option.map]
          rw [k1]
        have hkcongrB : keysOf h2 B = keysOf s.heap B := by
          refine keysOf_congr ?_
          intro x hx
          obtain ⟨m, n2, hm, hn2, k1, _, _⟩ := hkeyl x (hmemB x hx)
          rw [hm, hn2]
          dsimp only [Option.map]
          rw [k1]
        have hkeys2 : keysOf h2 (A ++ x0 :: s.heap.length :: B) =
            keysOf s.heap A ++ nx0.key :: k :: keysOf s.heap B := by
          rw [keysOf_append, keysOf_cons_valid hnX, keysOf_cons_valid hnA,
            hkcongrA, hkcongrB, hkX, hkA]
        have hkeysold : keysOf s.heap (A ++ x0 :: B) =
            keysOf s.heap A ++ nx0.key :: keysOf s.heap B := by
          rw [keysOf_append, keysOf_cons_valid hnx0]
        have hfin : (keysOf s.heap A ++
            nx0.key :: k :: keysOf s.heap B).toFinset =
            insert k (keysOf s.heap A ++
              nx0.key :: keysOf s.heap B).toFinset := by
          ext a
          simp [List.mem_append, List.mem_cons]
          tauto
        exact ⟨A ++ x0 :: s.heap.length :: B,
          ⟨nH2, hnH2, iH2.trans (hmH2 ▸ hish), fw0, hfH2, hchain2⟩,
          hsort2, hnhdr2, hptr2, hvis2,
          by rw [hkeys2, hkeysold]; exact hfin⟩

theorem insertNew_preserves {s : SkipList Int V} {l : List Nat}
    (hinv : Inv s l) (hav : AllVisible s.heap l)
    {k : Int} {v : V} {r : Int} {update : List (Option Nat)} {x0 : Nat}
    {fw : Option Nat} {s' : SkipList Int V}
    (hE : ∀ (j u : Nat), update[j]? = some (some u) → u ∈ s.header :: l)
    (h0 : update[0]? = some (some x0))
    (hx0 : x0 ∈ s.header :: l)
    (hbelow : x0 = s.header ∨ ∃ nx, getN s.heap x0 = some nx ∧ nx.key < k)
    (hfw : getFwd s.heap x0 0 = some fw)
    (hfwgt : ∀ z, fw = some z →
      z ∈ l ∧ ∃ nz, getN s.heap z = some nz ∧ k < nz.key)
    (hins : insertNew s k v r update = some s') :
    ∃ l', Inv s' l' ∧ AllVisible s'.heap l' ∧
      (keysOf s'.heap l').toFinset = insert k (keysOf s.heap l).toFinset ∧
      s'.header = s.header := by
  unfold insertNew at hins
  cases hrl : randomLevelGo (s.maxLevel - 1) r with
  | none => rw [hrl] at hins; exact Option.noConfusion hins
  | some lvl =>
    rw [hrl] at hins
    dsimp only [bind, Option.bind] at hins
    have hcont : ∃ update' level',
        update'[0]? = some (some x0) ∧
        (∀ (j u : Nat), update'[j]? = some (some u) → u ∈ s.header :: l) ∧
        (do
          let nid := s.heap.length
          let h1 := s.heap ++ [newNodeF lvl k v]
          let h2 ← spliceLevels nid update' h1 0 (lvl + 1)
          let (mn, mx) :=
            if s.size = 0 then (some (SLItem.mk k v), some (SLItem.mk k v))
            else (s.min, s.max)
          let mxv ← mx
          let mx' := if s.greater k mxv.Key then some (SLItem.mk k v) else mx
          let mnv ← mn
          let mn' := if s.less k mnv.Key then some (SLItem.mk k v) else mn
          some { s with heap := h2, level := level', min := mn', max := mx',
                        size := s.size + 1 }) = some s' := by
      by_cases hlz : lvl > s.level
      · rw [if_pos hlz] at hins
        cases hfh : fillHeader s.header update (s.level + 1)
            (lvl - s.level) with
        | none => rw [hfh] at hins; exact Option.noConfusion hins
        | some u' =>
          rw [hfh] at hins
          dsimp only [bind, Option.bind, pure] at hins
          obtain ⟨hlow, hent⟩ := fillHeader_facts hfh
          refine ⟨u', lvl, ?_, ?_, hins⟩
          · rw [hlow 0 (by omega)]; exact h0
          · intro j u hj
            rcases hent j u hj with rfl | hj'
            · exact List.mem_cons_self _ _
            · exact hE j u hj'
      · rw [if_neg hlz] at hins
        exact ⟨update, s.level, h0, hE, hins⟩
    obtain ⟨u', level', h0', hE', hins'⟩ := hcont
    dsimp only [bind, Option.bind] at hins'
    cases hsp : spliceLevels s.heap.length u'
        (s.heap ++ [newNodeF lvl k v]) 0 (lvl + 1) with
    | none => rw [hsp] at hins'; exact Option.noConfusion hins'
    | some h2 =>
      rw [hsp] at hins'
      dsimp only [bind, Option.bind] at hins'
      obtain ⟨l', hhdr2, hsort2, hnhdr2, hptr2, hvis2, hkeys2⟩ :=
        splice_insert_core hinv hav hE' h0' hx0 hbelow hfw hfwgt hsp
      by_cases hsz : s.size = 0
      · rw [if_pos hsz] at hins'
        dsimp only [bind, Option.bind] at hins'
        cases Option.some.inj hins'
        exact ⟨l', ⟨hhdr2, hsort2, hnhdr2, hptr2, hinv.cmpEq⟩,
          hvis2, hkeys2, rfl⟩
      · rw [if_neg hsz] at hins'
        dsimp only at hins'
        cases hmx : s.max with
        | none => rw [hmx] at hins'; exact Option.noConfusion hins'
        | some mxv =>
          rw [hmx] at hins'
          dsimp only [bind, Option.bind] at hins'
          cases hmn : s.min with
          | none => rw [hmn] at hins'; exact Option.noConfusion hins'
          | some mnv =>
            rw [hmn] at hins'
            dsimp only [bind, Option.bind] at hins'
            cases Option.some.inj hins'
            exact ⟨l', ⟨hhdr2, hsort2, hnhdr2, hptr2, hinv.cmpEq⟩,
              hvis2, hkeys2, rfl⟩

theorem insert_preserves {s : SkipList Int V} {l : List Nat}
    (hinv : Inv s l) (hav : AllVisible s.heap l)
    {k : Int} {v : V} {r : Int} {s' : SkipList Int V}
    (hins : insertGo s k v r = some s') :
    ∃ l', Inv s' l' ∧ AllVisible s'.heap l' ∧
      (keysOf s'.heap l').toFinset = insert k (keysOf s.heap l).toFinset ∧
      s'.header = s.header := by
  unfold insertGo at hins
  cases hsn : searchNodeGo s k with
  | none => rw [hsn] at hins; exact Option.noConfusion hins
  | some pr =>
    obtain ⟨update, x0⟩ := pr
    rw [hsn] at hins
    dsimp only [bind, Option.bind] at hins
    obtain ⟨hE, hx0, hbelow, h0, fw, hfw, hfwpost⟩ := searchNode_success hinv hsn
    rw [hfw] at hins
    dsimp only [bind, Option.bind] at hins
    cases fw with
    | none =>
      dsimp only at hins
      exact insertNew_preserves hinv hav hE h0 hx0 hbelow hfw
        (fun z hz => Option.noConfusion hz) hins
    | some c =>
      dsimp only at hins
      obtain ⟨hclm, nc, hnc, hnck⟩ := hfwpost c rfl
      rw [hnc] at hins
      dsimp only [bind, Option.bind] at hins
      by_cases heq : s.equal nc.key k = true
      · rw [if_pos heq] at hins
        cases Option.some.inj hins
        have hkeq : nc.key = k := by
          rw [SkipList.equal, hinv.cmpEq] at heq
          exact intCmp_eq_zero.mp (by simpa using heq)
        obtain ⟨hn, hhn, hish, fw0, hfw0, hchain⟩ := hinv.hdrSome
        have hclt : c < s.heap.length := getN_lt_length hnc
        have hcnh : c ≠ s.header := fun he => hdr_not_mem hinv (he ▸ hclm)
        have hgc : getN (s.heap.set c
            { nc with val := v, markedDeleted := false }) c
            = some { nc with val := v, markedDeleted := false } :=
          getN_set_eq hclt
        have hgo : ∀ y, y ≠ c →
            getN (s.heap.set c { nc with val := v, markedDeleted := false }) y
            = getN s.heap y := fun y hy => getN_set_ne (fun he => hy he.symm)
        have hkeyl : ∀ y ∈ l, ∃ m n2, getN s.heap y = some m ∧
            getN (s.heap.set c
              { nc with val := v, markedDeleted := false }) y = some n2 ∧
            n2.key = m.key ∧ n2.isHeader = m.isHeader ∧
            n2.forward = m.forward ∧ n2.markedDeleted = false := by
          intro y hy
          by_cases hyc : y = c
          · subst hyc
            exact ⟨nc, _, hnc, hgc, rfl, rfl, rfl, rfl⟩
          · obtain ⟨m, hm⟩ := chainSeg_valid hchain y hy
            refine ⟨m, m, hm, by rw [hgo y hyc]; exact hm, rfl, rfl, rfl, ?_⟩
            exact hav y hy m hm
        have hchain' : ChainSeg (s.heap.set c
            { nc with val := v, markedDeleted := false }) 0 fw0 l none := by
          refine chainSeg_frame hchain ?_
          intro x hx n hnx
          obtain ⟨m, n2, hm, hn2, _, _, hfwd, _⟩ := hkeyl x hx
          rw [hnx] at hm
          cases Option.some.inj hm
          exact ⟨n2, hn2, by rw [hfwd]⟩
        have hsort' : l.Pairwise (fun a b => keyLtB (s.heap.set c
            { nc with val := v, markedDeleted := false }) a b = true) := by
          refine pairwise_keyLtB_transfer ?_ hinv.sorted
          intro x hx
          obtain ⟨m, n2, hm, hn2, k1, _, _, _⟩ := hkeyl x hx
          exact ⟨m, n2, hm, hn2, k1⟩
        have hnhdr' : ∀ x ∈ l, ((getN (s.heap.set c
            { nc with val := v, markedDeleted := false }) x).map
              SLNode.isHeader).getD false = false := by
          intro x hx
          obtain ⟨m, n2, hm, hn2, _, i1, _, _⟩ := hkeyl x hx
          rw [hn2]
          have hold := hinv.nonHdr x hx
          rw [hm] at hold
          simp at hold ⊢
          rw [i1]
          exact hold
        have hptr' : PtrOk (s.heap.set c
            { nc with val := v, markedDeleted := false }) s.header l := by
          refine ptrOk_intro ?_
          intro x hx n hnx hfv hfvm p hp
          by_cases hxc : x = c
          · rw [hxc, hgc] at hnx
            cases Option.some.inj hnx
            exact ptrOk_spec hinv.closed c (List.mem_cons_of_mem _ hclm)
              nc hnc hfv hfvm p hp
          · rw [hgo x hxc] at hnx
            exact ptrOk_spec hinv.closed x hx n hnx hfv hfvm p hp
        have hvis' : AllVisible (s.heap.set c
            { nc with val := v, markedDeleted := false }) l := by
          intro x hx n hnx
          obtain ⟨m, n2, hm, hn2, _, _, _, hd⟩ := hkeyl x hx
          rw [hn2] at hnx
          cases Option.some.inj hnx
          exact hd
        have hkc : keysOf (s.heap.set c
            { nc with val := v, markedDeleted := false }) l
            = keysOf s.heap l := by
          refine keysOf_congr ?_
          intro x hx
          obtain ⟨m, n2, hm, hn2, k1, _, _, _⟩ := hkeyl x hx
          rw [hm, hn2]
          dsimp only [Option.map]
          rw [k1]
        have hkmem : k ∈ keysOf s.heap l := by
          unfold keysOf
          refine List.mem_filterMap.mpr ⟨c, hclm, ?_⟩
          rw [hnc]
          dsimp only [Option.map]
          rw [hkeq]
        have hhn' : getN (s.heap.set c
            { nc with val := v, markedDeleted := false }) s.header
            = some hn := by
          rw [hgo s.header (fun he => hcnh he.symm)]
          exact hhn
        refine ⟨l, ⟨⟨hn, hhn', hish, fw0, hfw0, hchain'⟩,
          hsort', hnhdr', hptr', hinv.cmpEq⟩, hvis', ?_, rfl⟩
        rw [hkc]
        exact (Finset.insert_eq_self.mpr (List.mem_toFinset.mpr hkmem)).symm
      · rw [if_neg heq] at hins
        have hkne : nc.key ≠ k := by
          intro hcon
          apply heq
          rw [SkipList.equal, hinv.cmpEq]
          simp [intCmp_eq_zero.mpr hcon]
        refine insertNew_preserves hinv hav hE h0 hx0 hbelow hfw ?_ hins
        intro z hz
        cases Option.some.inj hz
        refine ⟨hclm, nc, hnc, ?_⟩
        omega

/-! Invariant of the freshly constructed list and its preservation by a
whole sequence of Inserts. -/

theorem mk_inv (V : Type) [Inhabited V] {M : Nat} (hM : 1 ≤ M) :
    Inv (mkSkipList V M) [] := by
  refine ⟨⟨headerNode Int V M, rfl, rfl, none, ?_, ChainSeg.nil none⟩,
    List.Pairwise.nil, ?_, ?_, rfl⟩
  · show (List.replicate M (none : Option Nat))[0]? = some none
    exact List.getElem?_replicate_of_lt (by omega)
  · intro x hx
    simp at hx
  · refine ptrOk_intro ?_
    intro x hx n hnx fwp hfwp p hp
    subst hp
    have hx0 : x = 0 := by simpa using hx
    subst hx0
    have hne : n = headerNode Int V M := by
      have hg : getN (mkSkipList V M).heap 0 = some (headerNode Int V M) := rfl
      rw [hg] at hnx
      exact (Option.some.inj hnx).symm
    rw [hne] at hfwp
    have hrep : some p ∈ List.replicate M (none : Option Nat) := hfwp
    exact Option.noConfusion (List.eq_of_mem_replicate hrep)

theorem mk_vis (V : Type) [Inhabited V] {M : Nat} :
    AllVisible (mkSkipList V M).heap [] :=
  fun x hx => absurd hx (List.not_mem_nil x)

theorem runInserts_inv {V : Type} :
    ∀ {ops : List (Int × V × Int)} {s0 : SkipList Int V} {l0 : List Nat}
    {s : SkipList Int V},
    Inv s0 l0 → AllVisible s0.heap l0 →
    runInserts s0 ops = some s →
    ∃ l, Inv s l ∧ AllVisible s.heap l ∧
      (keysOf s.heap l).toFinset =
        (keysOf s0.heap l0).toFinset ∪
          ((ops.map fun op => op.1).toFinset) := by
  intro ops
  induction ops with
  | nil =>
    intro s0 l0 s hinv hav hrun
    rw [runInserts, List.foldlM_nil] at hrun
    cases Option.some.inj hrun
    exact ⟨l0, hinv, hav, by simp⟩
  | cons op ops ih =>
    intro s0 l0 s hinv hav hrun
    rw [runInserts, List.foldlM_cons] at hrun
    dsimp only [bind, Option.bind] at hrun
    cases hstep : insertGo s0 op.1 op.2.1 op.2.2 with
    | none => rw [hstep] at hrun; exact Option.noConfusion hrun
    | some s1 =>
      rw [hstep] at hrun
      dsimp only at hrun
      obtain ⟨l1, hinv1, hav1, hk1, _⟩ := insert_preserves hinv hav hstep
      obtain ⟨l, hinvf, havf, hkf⟩ := ih hinv1 hav1 hrun
      refine ⟨l, hinvf, havf, ?_⟩
      rw [hkf, hk1]
      ext a
      simp

/-! Transfer of the invariant to the iterator output. -/

theorem keysOf_pairwise_lt {h : List (SLNode Int V)} :
    ∀ {l : List Nat}, (∀ y ∈ l, ∃ n, getN h y = some n) →
    l.Pairwise (fun a b => keyLtB h a b = true) →
    (keysOf h l).Pairwise (· < ·) := by
  intro l
  induction l with
  | nil =>
    intro _ _
    simp [keysOf]
  | cons x t ih =>
    intro hval hp
    obtain ⟨n, hn⟩ := hval x (List.mem_cons_self _ _)
    rw [keysOf_cons_valid hn]
    obtain ⟨hhead, htail⟩ := List.pairwise_cons.mp hp
    refine List.pairwise_cons.mpr
      ⟨?_, ih (fun y hy => hval y (List.mem_cons_of_mem _ hy)) htail⟩
    intro b hb
    obtain ⟨y, hy, hyb⟩ := List.mem_filterMap.mp hb
    obtain ⟨m, hm⟩ := hval y (List.mem_cons_of_mem _ hy)
    rw [hm] at hyb
    have hbm : m.key = b := by simpa using hyb
    have hlt := hhead y hy
    unfold keyLtB at hlt
    rw [hn, hm] at hlt
    have hnm : n.key < m.key := by simpa using hlt
    rw [← hbm]
    exact hnm

theorem itemsOf_map_key {h : List (SLNode K V)} :
    ∀ {l : List Nat}, (∀ y ∈ l, ∃ n, getN h y = some n) →
    (itemsOf h l).map SLItem.Key = keysOf h l := by
  intro l
  induction l with
  | nil => intro _; rfl
  | cons x t ih =>
    intro hval
    obtain ⟨n, hn⟩ := hval x (List.mem_cons_self _ _)
    rw [itemsOf_cons_valid hn, keysOf_cons_valid hn, List.map_cons,
      ih (fun y hy => hval y (List.mem_cons_of_mem _ hy))]
    rfl

theorem allItems_of_inv {s : SkipList Int V} {l : List Nat}
    (hinv : Inv s l) (hav : AllVisible s.heap l) :
    allItemsGo s = some (itemsOf s.heap l) := by
  obtain ⟨hn, hhn, hish, fw0, hfw0, hchain⟩ := hinv.hdrSome
  unfold allItemsGo
  rw [getFwd_eq_some.mpr ⟨hn, hhn, hfw0⟩]
  dsimp only [bind, Option.bind]
  have hnodup : l.Nodup := chainSeg_full_nodup_of_sorted hchain hinv.sorted
  have hlen : l.length ≤ s.heap.length :=
    length_le_of_nodup_valid (chainSeg_valid hchain) hnodup
  rw [allAux_chain hchain (fun x hx n hnx => hav x hx n hnx)
    (show l.length + 1 ≤ s.heap.length + 1 by omega)]
  simp

/-- C3 amended witness: Range(1,3) on the chain 1, 2 (tombstoned), 3 returns
the visible elements with keys in [1,3], end inclusive. -/
theorem c3_range_amended_witness :
    (rangeGo sLazy2 1 3).getD [] =
      (visibleItems sLazy2.heap [1, 2, 3]).filter
        (fun it => decide ((1 : Int) ≤ it.Key) && decide (it.Key ≤ 3)) :=
  c3_range_amended sLazy2 [1, 2, 3] 1 3 ((rangeGo sLazy2 1 3).getD [])
    ⟨⟨_, rfl, rfl, some 1, rfl,
        ChainSeg.cons rfl rfl (ChainSeg.cons rfl rfl
          (ChainSeg.cons rfl rfl (ChainSeg.nil none)))⟩,
      by decide, by decide, by unfold PtrOk; decide, rfl⟩
    (fun z nz h1 h2 => by
      cases Option.some.inj h1
      cases Option.some.inj h2
      rfl)
    rfl

/-- C1: for every sequence of Insert calls (each with its random draw)
starting from a freshly constructed list with capacity at least 1, when the
run completes without fault there is a listing `l` of the level-0 chain
reachable from the header such that the chain's keys are strictly
increasing, each distinct inserted key occurs exactly once in it (its key
set is exactly the set of inserted keys, with no duplicates), and
Iterator().All() returns exactly the items of that chain in chain order. -/
theorem c1_insert_sorted {V : Type} [Inhabited V] {M : Nat}
    {ops : List (Int × V × Int)} {s : SkipList Int V} (hM : 1 ≤ M)
    (hrun : runInserts (mkSkipList V M) ops = some s) :
    ∃ l, (∃ hn, getN s.heap s.header = some hn ∧ hn.isHeader = true ∧
        ∃ fw0, hn.forward[0]? = some fw0 ∧ ChainSeg s.heap 0 fw0 l none) ∧
      (keysOf s.heap l).Pairwise (· < ·) ∧
      (keysOf s.heap l).Nodup ∧
      (keysOf s.heap l).toFinset = (ops.map fun op => op.1).toFinset ∧
      allItemsGo s = some (itemsOf s.heap l) ∧
      (itemsOf s.heap l).map SLItem.Key = keysOf s.heap l := by
  obtain ⟨l, hinv, hav, hkeys⟩ :=
    runInserts_inv (mk_inv V hM) (mk_vis V) hrun
  obtain ⟨hn, hhn, hish, fw0, hfw0, hchain⟩ := hinv.hdrSome
  have hval : ∀ y ∈ l, ∃ n, getN s.heap y = some n := chainSeg_valid hchain
  have hplt : (keysOf s.heap l).Pairwise (· < ·) :=
    keysOf_pairwise_lt hval hinv.sorted
  refine ⟨l, ⟨hn, hhn, hish, fw0, hfw0, hchain⟩, hplt,
    hplt.imp (fun hab => ne_of_lt hab), ?_, allItems_of_inv hinv hav,
    itemsOf_map_key hval⟩
  rw [hkeys]
  have hbase : keysOf (mkSkipList V M).heap ([] : List Nat) = [] := rfl
  rw [hbase]
  simp

/-- C1 witness: the run Insert(1,10), Insert(2,20), Insert(3,30) into a
fresh capacity-4 list (all level draws 1) completes, and its chain is
strictly increasing with key set exactly the three inserted keys. -/
theorem c1_insert_sorted_witness :
    (runInserts (mkSkipList Int 4)
      [(1, (10 : Int), (1 : Int)), (2, 20, 1), (3, 30, 1)] = some sIns3) ∧
    ∃ l, (∃ hn, getN sIns3.heap sIns3.header = some hn ∧
        hn.isHeader = true ∧
        ∃ fw0, hn.forward[0]? = some fw0 ∧ ChainSeg sIns3.heap 0 fw0 l none) ∧
      (keysOf sIns3.heap l).Pairwise (· < ·) ∧
      (keysOf sIns3.heap l).Nodup ∧
      (keysOf sIns3.heap l).toFinset =
        (([(1, (10 : Int), (1 : Int)), (2, 20, 1), (3, 30, 1)]).map
          fun op => op.1).toFinset ∧
      allItemsGo sIns3 = some (itemsOf sIns3.heap l) ∧
      (itemsOf sIns3.heap l).map SLItem.Key = keysOf sIns3.heap l :=
  ⟨rfl, @c1_insert_sorted Int _ 4
    [(1, 10, 1), (2, 20, 1), (3, 30, 1)] sIns3 (by decide) rfl⟩

/-- C2: evaluation of Combine at a failing input.  In sLazy2 the key 2 is
tombstoned, so its ToArray is [(1,10),(3,30)] and the sorted union of the
visible elements with sB5 is [(1,10),(3,30),(5,50)], of length 3.  The code
instead copies the tombstoned node into the result as a fresh unmarked node:
the result's ToArray is [(1,10),(2,20),(3,30),(5,50)] (four elements, key 2
resurrected) while its size field is 3, so ToArray is not the sorted union of
the operands' elements and disagrees with the size. -/
theorem c2_combine_eval :
    combineGo sLazy2 sB5 (fun _ => 1) = some sComb ∧
    allItemsGo sLazy2 = some [⟨1, 10⟩, ⟨3, 30⟩] ∧
    allItemsGo sB5 = some [⟨5, 50⟩] ∧
    allItemsGo sComb =
      some [⟨1, 10⟩, ⟨2, 20⟩, ⟨3, 30⟩, ⟨5, 50⟩] ∧
    sComb.size = 3 := by
  refine ⟨rfl, by decide, by decide, by decide, by decide⟩

/-- C4: evaluation of LazyDelete/Clean at failing inputs.  LazyDelete(1) on
the one-element list faults (after nilling min and max it dereferences
`sl.max.Key`), where eager Delete(1) succeeds.  LazyDelete(2) on the
three-element list records nothing in `tombstones`, so Clean removes nothing:
the tombstoned node with key 2 is still linked after node 1 (`forward[0]`
of node 1 is node 2, still flagged), whereas the eager Delete(2) unlinks it
(node 1 then points at node 3). -/
theorem c4_lazydelete_clean_eval :
    lazyDeleteGo s1e 1 = none ∧
    (deleteGo s1e 1).isSome = true ∧
    lazyDeleteGo sIns3 2 = some sLazy2 ∧
    sLazy2.tombstones = [] ∧
    cleanGo sLazy2 = some sCleanL ∧
    sCleanL.heap = sLazy2.heap ∧
    getFwd sCleanL.heap 1 0 = some (some 2) ∧
    (getN sCleanL.heap 2).map SLNode.markedDeleted = some true ∧
    deleteGo sIns3 2 = some sDel2 ∧
    getFwd sDel2.heap 1 0 = some (some 3) := by
  exact ⟨rfl, rfl, rfl, by decide, rfl, by decide, by decide,
    by decide, rfl, by decide⟩

/-- C5: evaluation of Delete's min/max maintenance at failing inputs.
Deleting the minimum key 1 from the two-element list sets the cached min from
`update[0].forward[0]`, which still points at the node being deleted, so
Min() afterwards returns the deleted element (1,10) while the level-0 chain
and Iterator().All() start at (2,20).  Deleting the only element leaves both
caches non-nil: min is the deleted element and max is the header's zero
item. -/
theorem c5_minmax_eval :
    deleteGo sAB 1 = some sD1 ∧
    minGo sD1 = some ⟨1, 10⟩ ∧
    allItemsGo sD1 = some [⟨2, 20⟩] ∧
    deleteGo s1e 1 = some sD0 ∧
    sizeGo sD0 = 0 ∧
    allItemsGo sD0 = some [] ∧
    minGo sD0 = some ⟨1, 10⟩ ∧
    maxGo sD0 = some ⟨0, 0⟩ := by
  exact ⟨rfl, by decide, by decide, rfl, by decide, by decide, by decide,
    by decide⟩

/-- C6: evaluation of the size field at a failing input.  LazyDelete(2)
decrements size to 2; the following Insert(2,40) clears the tombstone flag
of the existing node without incrementing size, so the state has three
non-tombstoned reachable nodes (and Search(2) finds the key) while the size
field still reads 2. -/
theorem c6_size_eval :
    lazyDeleteGo sIns3 2 = some sLazy2 ∧
    sizeGo sLazy2 = 2 ∧
    insertGo sLazy2 2 40 1 = some sRes ∧
    sizeGo sRes = 2 ∧
    allItemsGo sRes = some [⟨1, 10⟩, ⟨2, 40⟩, ⟨3, 30⟩] ∧
    searchGo sRes 2 = some (40, true) := by
  exact ⟨rfl, by decide, rfl, by decide, by decide, by decide⟩

/-- C7: evaluation of randomLevel at a failing draw.  For a list built with
maxLevel 16 the field is 15 and `randomLevel` masks with 14 bits; when the
draw has all 14 masked bits zero, `bits.TrailingZeros64` of 0 returns 64,
far above the configured maximum, and the splice loop of Insert then indexes
the length-15 update array out of bounds (a run-time fault, `none` here). -/
theorem c7_randomlevel_eval :
    randomLevelGo 14 0 = some 64 ∧
    randomLevelGo 14 1 = some 0 ∧
    (mkSkipList Int 16).maxLevel = 15 ∧
    insertGo (mkSkipList Int 16) 1 10 0 = none := by
  exact ⟨by decide, by decide, by decide, rfl⟩

/-- C8: evaluation of LazyDelete on an absent key at a failing input.  Key 0
is not in the list, yet LazyDelete(0) tombstones the successor node (key 1):
afterwards Search(1) reports not found, size has dropped from 3 to 2, and the
cached min moved to (2,20).  The claim says the list is left unchanged. -/
theorem c8_lazydelete_absent_eval :
    searchGo sIns3 0 = some (0, false) ∧
    searchGo sIns3 1 = some (10, true) ∧
    sizeGo sIns3 = 3 ∧
    lazyDeleteGo sIns3 0 = some sL0 ∧
    searchGo sL0 1 = some (0, false) ∧
    sizeGo sL0 = 2 ∧
    minGo sL0 = some ⟨2, 20⟩ := by
  exact ⟨by decide, by decide, by decide, rfl, by decide, by decide,
    by decide⟩

/-- C3 counterexample: Range is not half-open and mishandles a tombstoned
start node.  On the list with keys 1,2, Range(1,2) includes the element with
key equal to the end bound.  On the chain 2 (tombstoned), 5, 7, Range(1,3)
returns [(5,50)], an element whose key lies outside [1,3] entirely (the
loop compares the bound against the tombstoned node, then skips past it and
appends whatever follows). -/
theorem c3_range_counterexample :
    rangeGo sAB 1 2 = some [⟨1, 10⟩, ⟨2, 20⟩] ∧
    rangeGo sK3 1 3 = some [⟨5, 50⟩] := by
  exact ⟨by decide, by decide⟩

/-- C9 counterexample: Combine performs no comparator validation.  sAB is
ordered by the ascending integer comparator and sC9B by the reversed one
(they disagree at (0,1)), yet Combine silently accepts the pair and produces
a result list. -/
theorem c9_combine_counterexample :
    sAB.compareFunc 0 1 = -1 ∧
    sC9B.compareFunc 0 1 = 1 ∧
    (combineGo sAB sC9B fun _ => 1).isSome = true := by
  exact ⟨by decide, by decide, rfl⟩

/-- C9 amended: Combine performs no comparator validation and has no
rejection path.  Whenever it returns a result, that result is an ordinary
list carrying the first operand's comparator (and, by the counterexample,
it does return a result on a concrete mismatched pair). -/
theorem c9_combine_no_validation {K V : Type} [Inhabited K] [Inhabited V]
    (sl1 sl2 : SkipList K V) (rs : Nat → Int) (r : SkipList K V)
    (h : combineGo sl1 sl2 rs = some r) :
    r.compareFunc = sl1.compareFunc := by
  unfold combineGo at h
  dsimp only [bind, Option.bind] at h
  repeat' first
    | split at h
    | dsimp only at h
  all_goals
    first
    | exact Option.noConfusion h
    | (cases Option.some.inj h; rfl)

/-- C9 amended witness: the comparator of the concrete mismatched merge
result is the first operand's. -/
theorem c9_combine_no_validation_witness :
    ((combineGo sAB sC9B fun _ => 1).getD mk4).compareFunc =
      sAB.compareFunc :=
  c9_combine_no_validation sAB sC9B (fun _ => 1)
    ((combineGo sAB sC9B fun _ => 1).getD mk4) rfl

/-- C10 counterexample to the unrestricted claim: on NewSkipList[int,int](1)
(field maxLevel 0, a constructor-valid list) Clear succeeds and does reset
size, level, min, max and the tombstone list, but it installs a fresh header
with `sl.maxLevel = 0` forward slots — one fewer than the constructor's —
so the very next Search(5) dereferences `x.forward[0]` out of range, a
run-time panic (`none`), not the not-found report the claim promises. -/
theorem c10_clear_counterexample :
    clearGo sM1 = some sM1c ∧
    sizeGo sM1c = 0 ∧ levelGo sM1c = 0 ∧ minGo sM1c = none ∧
    maxGo sM1c = none ∧ sM1c.tombstones = [] ∧
    searchGo sM1c (5 : Int) = none :=
  ⟨rfl, rfl, rfl, rfl, rfl, rfl, rfl⟩

/-- C10 amended: for every list whose field `maxLevel` is at least 1 (a
constructor maximum level of at least 2), after Clear the list is observably
empty: Size is 0, Level is 0, Min and Max are nil, the tombstone list is
empty, and Search reports not-found for every key.  The proviso is forced:
Clear allocates the fresh header with `sl.maxLevel` slots and Search reads
slot 0, so on NewSkipList(1) the search after Clear panics instead. -/
theorem c10_clear {K V : Type} [Inhabited K] [Inhabited V] (s : SkipList K V)
    (h1 : 1 ≤ s.maxLevel) :
    ∃ s', clearGo s = some s' ∧ sizeGo s' = 0 ∧ levelGo s' = 0 ∧
      minGo s' = none ∧ maxGo s' = none ∧ s'.tombstones = [] ∧
      ∀ k, searchGo s' k = some (default, false) := by
  have hnn : ¬ s.maxLevel < 0 := by omega
  set s' : SkipList K V :=
    { s with size := 0, level := 0, tombstones := [], max := none,
             min := none, header := s.heap.length,
             heap := s.heap ++ [headerNode K V s.maxLevel.toNat] } with hs'
  refine ⟨s', by simp [clearGo, hnn, hs'], rfl, rfl, rfl, rfl, rfl, ?_⟩
  intro k
  have hhdr : getN s'.heap s'.header = some (headerNode K V s.maxLevel.toNat) := by
    simp [hs', getN]
  have hlen1 : 1 ≤ s.maxLevel.toNat := by omega
  have hfw : (headerNode K V s.maxLevel.toNat).forward[0]? = some none := by
    simp [headerNode, List.getElem?_replicate]
    omega
  have hgf : getFwd s'.heap s'.header 0 = some none := by
    simp [getFwd, hhdr, hfw]
  have hsn : searchNodeGo s' k =
      some ((List.replicate s.maxLevel.toNat none).set 0 (some s'.header),
        s'.header) := by
    have hml : ¬ s'.maxLevel < 0 := hnn
    have hw : walk s' 0 k (s.heap.length + 1 + 1) s.heap.length =
        some s.heap.length := by
      have hg : getFwd s'.heap s.heap.length 0 = some none := hgf
      simp [walk, hg]
    have hpos : 0 < s.maxLevel := by omega
    simp [searchNodeGo, hml, snAux, hw, hpos]
  simp [searchGo, hsn, hgf]

/-- C10 witness: Clear on the concrete two-element list. -/
theorem c10_clear_witness :
    ∃ s', clearGo sAB = some s' ∧ sizeGo s' = 0 ∧ levelGo s' = 0 ∧
      minGo s' = none ∧ maxGo s' = none ∧ s'.tombstones = [] ∧
      ∀ k, searchGo s' k = some (default, false) :=
  c10_clear sAB (by decide)

end SkipListVer
